import Mathlib

/-!
Little Lemon reservation form: validation and submission.

A shallow embedding of `src/components/BookingForm.js` (the validators, the
change handler, whole-form validation and the submit handler) together with the
parts of the JavaScript language the code relies on: truthiness, `trim`,
`length`, string-to-number coercion, the regular expression used for e-mail
addresses, and `Date` construction from a date-only string.
-/

namespace LittleLemon

/-! ## JavaScript values -/

/-- A JavaScript Number: `NaN`, an infinity, or a finite value given as a
rational. The conversion from text rounds to the nearest double
(`roundToDouble`), so every number it yields is a double; the two zeros are not
told apart (the code never divides, and both are falsy). -/
inductive JSNum where
  | nan
  | fin (q : ℚ)
  | posInf
  | negInf
  deriving DecidableEq

/-- The primitive values that reach the form code. -/
inductive JSValue where
  | undefined
  | null
  | bool (b : Bool)
  | num (n : JSNum)
  | str (s : String)
  deriving DecidableEq

/-- An exception raised by the code. -/
inductive JSError where
  | typeError (what : String)
  deriving DecidableEq

deriving instance DecidableEq for Except

/-- ToBoolean: `undefined`, `null`, `false`, `0`, `NaN` and `''` are falsy. -/
def JSValue.truthy : JSValue → Bool
  | .undefined => false
  | .null => false
  | .bool b => b
  | .num .nan => false
  | .num (.fin q) => decide (q ≠ 0)
  | .num _ => true
  | .str s => decide (s ≠ "")

/-- The comparison `a < b` on Numbers: false as soon as one side is `NaN`. -/
def JSNum.lt : JSNum → JSNum → Bool
  | .nan, _ => false
  | _, .nan => false
  | .fin a, .fin b => decide (a < b)
  | .fin _, .posInf => true
  | .fin _, .negInf => false
  | .posInf, _ => false
  | .negInf, .negInf => false
  | .negInf, _ => true

/-- Unary minus on Numbers. -/
def JSNum.neg : JSNum → JSNum
  | .nan => .nan
  | .fin q => .fin (-q)
  | .posInf => .negInf
  | .negInf => .posInf

/-! ## Rounding to a double -/

/-- Bit length less one, by halving at most `fuel` times. -/
def log2Fuel : Nat → Nat → Nat
  | 0, _ => 0
  | fuel + 1, n => if 2 ≤ n then log2Fuel fuel (n / 2) + 1 else 0

/-- The integer part of the base-2 logarithm of a positive natural number. -/
def log2Floor (n : Nat) : Nat := log2Fuel n n

/-- The quotient `n / d` rounded to the nearest natural number, a tie going to
the even neighbour. -/
def roundHalfEven (n d : Nat) : Nat :=
  let q := n / d
  let r := n % d
  if 2 * r < d then q
  else if d < 2 * r then q + 1
  else if q % 2 = 0 then q else q + 1

/-- The integer part of the base-2 logarithm of `n / d`, for positive `n` and
`d`: the exponent `e` with `2^e ≤ n / d < 2^(e+1)`. -/
def binaryExponent (n d : Nat) : Int :=
  let e : Int := (log2Floor n : Int) - (log2Floor d : Int)
  if 0 ≤ e then (if d * 2 ^ e.toNat ≤ n then e else e - 1)
  else (if d ≤ n * 2 ^ (-e).toNat then e else e - 1)

/-- The double nearest to the positive rational `n / d` (ties to even): a
53-bit significand at the exponent of `n / d`, the exponent no smaller than
`-1022` (below that the doubles are evenly spaced by `2^-1074`), and infinity
when the rounded value reaches `2^1024`. -/
def roundMagnitude (n d : Nat) : JSNum :=
  let e := max (binaryExponent n d) (-1022)
  let s := e - 52
  if 0 ≤ s then
    let v := roundHalfEven n (d * 2 ^ s.toNat) * 2 ^ s.toNat
    if 2 ^ 1024 ≤ v then .posInf else .fin (v : ℚ)
  else
    .fin ((roundHalfEven (n * 2 ^ (-s).toNat) d : ℚ) / ((2 ^ (-s).toNat : Nat) : ℚ))

/-- The Number value for a mathematical value: the nearest double, ties to
even, as engines compute it for a numeric text of any length. -/
def roundToDouble (q : ℚ) : JSNum :=
  if q = 0 then .fin 0
  else if 0 < q then roundMagnitude q.num.natAbs q.den
  else (roundMagnitude q.num.natAbs q.den).neg

/-! ## Strings -/

/-- The characters matched by `\s` and removed by `trim`: WhiteSpace and
LineTerminator of the language standard. -/
def isJsWhitespace (c : Char) : Bool :=
  let n := c.toNat
  n = 0x09 || n = 0x0A || n = 0x0B || n = 0x0C || n = 0x0D || n = 0x20 ||
  n = 0xA0 || n = 0x1680 || (0x2000 ≤ n && n ≤ 0x200A) || n = 0x2028 ||
  n = 0x2029 || n = 0x202F || n = 0x205F || n = 0x3000 || n = 0xFEFF

/-- The effect of `trim` on the list of characters of a string. -/
def trimChars (cs : List Char) : List Char :=
  ((cs.dropWhile isJsWhitespace).reverse.dropWhile isJsWhitespace).reverse

/-- The method `String.prototype.trim`. -/
def jsTrim (s : String) : String := ⟨trimChars s.data⟩

/-- Number of UTF-16 code units of one character. -/
def utf16Units (c : Char) : Nat := if c.toNat < 0x10000 then 1 else 2

/-- The `length` of a list of characters, counted in UTF-16 code units. -/
def unitLength (cs : List Char) : Nat := (cs.map utf16Units).sum

/-- The `length` property of a string. -/
def jsLength (s : String) : Nat := unitLength s.data

/-! ## String to number -/

/-- A decimal digit `0`..`9`. -/
def isDigit (c : Char) : Bool := decide (48 ≤ c.toNat) && decide (c.toNat ≤ 57)

/-- Value of a run of decimal digits (the empty run has value `0`). -/
def digitsValue (ds : List Char) : Nat :=
  ds.foldl (fun acc c => 10 * acc + (c.toNat - 48)) 0

/-- Value of one digit in the given radix, if it is one. -/
def radixDigit (radix : Nat) (c : Char) : Option Nat :=
  let n := c.toNat
  let v : Option Nat :=
    if 48 ≤ n ∧ n ≤ 57 then some (n - 48)
    else if 97 ≤ n ∧ n ≤ 102 then some (n - 87)
    else if 65 ≤ n ∧ n ≤ 70 then some (n - 55)
    else none
  v.filter (fun d => decide (d < radix))

/-- Value of a non-empty run of digits in the given radix. -/
def radixValue (radix : Nat) (cs : List Char) : Option Nat :=
  if cs = [] then none
  else cs.foldl (fun acc c => acc.bind fun a => (radixDigit radix c).map fun d => radix * a + d)
    (some 0)

/-- NonDecimalIntegerLiteral: `0x`, `0o` or `0b` followed by digits, unsigned. -/
def parseNonDecimal : List Char → Option Nat
  | '0' :: 'x' :: r => radixValue 16 r
  | '0' :: 'X' :: r => radixValue 16 r
  | '0' :: 'o' :: r => radixValue 8 r
  | '0' :: 'O' :: r => radixValue 8 r
  | '0' :: 'b' :: r => radixValue 2 r
  | '0' :: 'B' :: r => radixValue 2 r
  | _ => none

/-- The number `q × 10^e`. -/
def scale10 (q : ℚ) (e : Int) : ℚ :=
  if 0 ≤ e then q * (10 : ℚ) ^ e.toNat else q / (10 : ℚ) ^ (-e).toNat

/-- ExponentPart, possibly absent: `e` or `E`, an optional sign, and one or more
digits. The result is the exponent (`0` when the part is absent). -/
def parseExponent : List Char → Option Int
  | [] => some 0
  | c :: r =>
    if c = 'e' ∨ c = 'E' then
      match r with
      | '+' :: ds =>
        if ds ≠ [] ∧ ds.all isDigit = true then some (digitsValue ds : Int) else none
      | '-' :: ds =>
        if ds ≠ [] ∧ ds.all isDigit = true then some (-(digitsValue ds : Int)) else none
      | ds =>
        if ds ≠ [] ∧ ds.all isDigit = true then some (digitsValue ds : Int) else none
    else none

/-- StrUnsignedDecimalLiteral: `Infinity`, or digits with an optional fraction
and an optional exponent, whose exact value is rounded to a double; `none` when
the text is not such a literal. -/
def parseUnsignedDecimal (cs : List Char) : Option JSNum :=
  if cs = "Infinity".data then some .posInf
  else
    let ip := cs.takeWhile isDigit
    match cs.dropWhile isDigit with
    | '.' :: r =>
      let fp := r.takeWhile isDigit
      if ip = [] ∧ fp = [] then none
      else
        (parseExponent (r.dropWhile isDigit)).map fun e =>
          roundToDouble
            (scale10 ((digitsValue ip : ℚ) + (digitsValue fp : ℚ) / (10 : ℚ) ^ fp.length) e)
    | r =>
      if ip = [] then none
      else (parseExponent r).map fun e => roundToDouble (scale10 (digitsValue ip : ℚ) e)

/-- StringToNumber: surrounding white space is ignored, the empty text is `0`,
a numeric literal has its value rounded to a double, and every other text is
`NaN`. -/
def stringToNumber (s : String) : JSNum :=
  let cs := trimChars s.data
  if cs = [] then .fin 0
  else
    match parseNonDecimal cs with
    | some n => roundToDouble (n : ℚ)
    | none =>
      match cs with
      | '+' :: r => (parseUnsignedDecimal r).getD .nan
      | '-' :: r => ((parseUnsignedDecimal r).map JSNum.neg).getD .nan
      | r => (parseUnsignedDecimal r).getD .nan

/-- ToNumber. -/
def JSValue.toNumber : JSValue → JSNum
  | .undefined => .nan
  | .null => .fin 0
  | .bool b => .fin (if b then 1 else 0)
  | .num n => n
  | .str s => stringToNumber s

/-- The decimal text of an integer, as `String(g)` writes it. -/
def decimalText (g : Int) : String := toString g

/-! ## Dates -/

/-- Milliseconds in a day. -/
def msPerDay : Int := 86400000

/-- Largest magnitude of a time value. -/
def maxTimeValue : Int := 8640000000000000

/-- TimeClip: a time value out of range becomes `NaN` (here `none`). -/
def timeClip (t : Int) : Option Int :=
  if -maxTimeValue ≤ t ∧ t ≤ maxTimeValue then some t else none

/-- DayFromYear: the day number of 1 January of year `y` (day 0 is 1 January 1970). -/
def dayFromYear (y : Int) : Int :=
  365 * (y - 1970) + (y - 1969) / 4 - (y - 1901) / 100 + (y - 1601) / 400

/-- Gregorian leap year. -/
def isLeapYear (y : Int) : Bool :=
  (decide (y % 4 = 0) && decide (y % 100 ≠ 0)) || decide (y % 400 = 0)

/-- Number of days of month `m` (1..12) of year `y`; `0` for any other `m`. -/
def daysInMonth (y : Int) (m : Nat) : Nat :=
  match m with
  | 1 => 31
  | 2 => if isLeapYear y then 29 else 28
  | 3 => 31
  | 4 => 30
  | 5 => 31
  | 6 => 30
  | 7 => 31
  | 8 => 31
  | 9 => 30
  | 10 => 31
  | 11 => 30
  | 12 => 31
  | _ => 0

/-- Days of year `y` that precede the first day of month `m`. -/
def daysBeforeMonth (y : Int) (m : Nat) : Nat :=
  ((List.range (m - 1)).map fun i => daysInMonth y (i + 1)).sum

/-- MakeDay for a calendar date: its day number since 1 January 1970. -/
def makeDay (y : Int) (m d : Nat) : Int :=
  dayFromYear y + (daysBeforeMonth y m : Int) + ((d : Int) - 1)

/-- Fields of a date-only text of the date-time string format: `YYYY`,
`YYYY-MM` or `YYYY-MM-DD` (an omitted month or day is `01`). -/
def isoDateOnly (cs : List Char) : Option (Nat × Nat × Nat) :=
  match cs with
  | [y1, y2, y3, y4] =>
    if [y1, y2, y3, y4].all isDigit then some (digitsValue [y1, y2, y3, y4], 1, 1) else none
  | [y1, y2, y3, y4, s1, m1, m2] =>
    if s1 = '-' ∧ [y1, y2, y3, y4, m1, m2].all isDigit = true then
      some (digitsValue [y1, y2, y3, y4], digitsValue [m1, m2], 1)
    else none
  | [y1, y2, y3, y4, s1, m1, m2, s2, d1, d2] =>
    if s1 = '-' ∧ s2 = '-' ∧ [y1, y2, y3, y4, m1, m2, d1, d2].all isDigit = true then
      some (digitsValue [y1, y2, y3, y4], digitsValue [m1, m2], digitsValue [d1, d2])
    else none
  | _ => none

/-- What the code takes from its surroundings: the clock, the time zone of the
user, and how the engine reads date texts outside the date-only forms of the
standard format (the standard leaves those to the implementation). -/
structure Env where
  /-- Time value of `new Date()`: milliseconds since 1 January 1970 UTC. -/
  now : Int
  /-- LocalTZA(t, isUTC): offset of local time from UTC, in milliseconds. -/
  localTZA : Int → Bool → Int
  /-- Result of `Date.parse` on a text that is not a date-only form naming a real
  calendar date; `none` is `NaN`. -/
  fallbackParse : String → Option Int

/-- The function `Date.parse`: a date-only form naming a real calendar date is midnight UTC
of that date; `none` stands for `NaN`. -/
def dateParse (env : Env) (s : String) : Option Int :=
  match isoDateOnly s.data with
  | some (y, m, d) =>
    if 1 ≤ m ∧ m ≤ 12 ∧ 1 ≤ d ∧ d ≤ daysInMonth y m then some (makeDay y m d * msPerDay)
    else env.fallbackParse s
  | none => env.fallbackParse s

/-- Truncation toward zero. -/
def truncQ (q : ℚ) : Int := if 0 ≤ q then ⌊q⌋ else ⌈q⌉

/-- The time value of `new Date(value)`; `none` is an Invalid Date. -/
def newDate (env : Env) (value : JSValue) : Option Int :=
  match value with
  | .str s => dateParse env s
  | v =>
    match v.toNumber with
    | .fin q =>
      if -(maxTimeValue : ℚ) ≤ q ∧ q ≤ (maxTimeValue : ℚ) then some (truncQ q) else none
    | _ => none

/-- The time value after `setHours(0, 0, 0, 0)`: the start of the local day that
contains the time value `tv`. -/
def setHoursZero (env : Env) (tv : Option Int) : Option Int :=
  tv.bind fun t =>
    let localTime := t + env.localTZA t true
    let date := localTime / msPerDay * msPerDay
    timeClip (date - env.localTZA date false)

/-- The comparison `a < b` on two Date objects, by their time values. -/
def dateLt : Option Int → Option Int → Bool
  | some a, some b => decide (a < b)
  | _, _ => false

/-! ## Regular expressions -/

/-- The fragment of regular expressions the code uses. A character class is a
predicate on characters; the classes used here treat both halves of a surrogate
pair alike, so matching per character agrees with matching per code unit. -/
inductive RegExp where
  | never
  | empty
  | cls (p : Char → Bool)
  | alt (a b : RegExp)
  | cat (a b : RegExp)
  | star (a : RegExp)

namespace RegExp

/-- A literal character. -/
def lit (c : Char) : RegExp := cls (fun x => x == c)

/-- One or more repetitions: `a+`. -/
def plus (a : RegExp) : RegExp := cat a (star a)

/-- Does the expression match the empty text? -/
def nullable : RegExp → Bool
  | never => false
  | empty => true
  | cls _ => false
  | alt a b => nullable a || nullable b
  | cat a b => nullable a && nullable b
  | star _ => true

/-- Brzozowski derivative: what remains to be matched after reading `c`. -/
def deriv : RegExp → Char → RegExp
  | never, _ => never
  | empty, _ => never
  | cls p, c => if p c then empty else never
  | alt a b, c => alt (deriv a c) (deriv b c)
  | cat a b, c =>
    if nullable a then alt (cat (deriv a c) b) (deriv b c) else cat (deriv a c) b
  | star a, c => cat (deriv a c) (star a)

/-- Whole-text match, as `test` on a pattern anchored by `^` and `$`. -/
def testChars : RegExp → List Char → Bool
  | r, [] => nullable r
  | r, c :: cs => testChars (deriv r c) cs

/-- The method `RegExp.prototype.test` for an anchored pattern. -/
def test (r : RegExp) (s : String) : Bool := testChars r s.data

/-- Declarative meaning of an expression: the texts it matches. -/
inductive Matches : RegExp → List Char → Prop
  | empty : Matches empty []
  | cls {p : Char → Bool} {c : Char} : p c = true → Matches (cls p) [c]
  | altL {a b : RegExp} {w : List Char} : Matches a w → Matches (alt a b) w
  | altR {a b : RegExp} {w : List Char} : Matches b w → Matches (alt a b) w
  | cat {a b : RegExp} {u v : List Char} :
      Matches a u → Matches b v → Matches (cat a b) (u ++ v)
  | starNil {a : RegExp} : Matches (star a) []
  | starCons {a : RegExp} {u v : List Char} :
      Matches a u → Matches (star a) v → Matches (star a) (u ++ v)

end RegExp

/-- The class `[^\s@]`. -/
def notSpaceOrAt (c : Char) : Bool := !(isJsWhitespace c || c == '@')

/-- The pattern `/^[^\s@]+@[^\s@]+\.[^\s@]+$/`. -/
def emailRegex : RegExp :=
  .cat (.plus (.cls notSpaceOrAt))
    (.cat (.lit '@')
      (.cat (.plus (.cls notSpaceOrAt))
        (.cat (.lit '.') (.plus (.cls notSpaceOrAt)))))

/-! ## Objects -/

/-- A plain object: its own properties in insertion order. -/
abbrev JSObj (α : Type) := List (String × α)

namespace JSObj

/-- The keys `Object.keys(o)`. -/
def keys {α : Type} (o : JSObj α) : List String := o.map Prod.fst

/-- The value stored under `k`, if the object has that property. -/
def get {α : Type} (o : JSObj α) (k : String) : Option α := List.lookup k o

/-- The object after `o[k] = v` (equally `{...o, [k]: v}`): an existing property
keeps its place and takes the new value, a new property is added at the end. -/
def set {α : Type} : JSObj α → String → α → JSObj α
  | [], k, v => [(k, v)]
  | (k', v') :: rest, k, v =>
    if k' = k then (k', v) :: rest else (k', v') :: set rest k v

end JSObj

/-- Property read `o[k]`: `undefined` when the property is absent. -/
def JSObj.prop (o : JSObj JSValue) (k : String) : JSValue := (o.get k).getD .undefined

/-! ## The booking form -/

/-- The validator `validateField(name, value)`; `env` supplies the clock and the
time zone read by the `date` case. -/
def validateField (env : Env) (name : String) (value : JSValue) : Except JSError String :=
  match name with
  | "date" =>
    if !value.truthy then .ok "Date is required"
    else
      let selectedDate := newDate env value
      let today := setHoursZero env (some env.now)
      if dateLt selectedDate today then .ok "Date cannot be in the past"
      else .ok ""
  | "time" =>
    if !value.truthy then .ok "Time is required"
    else .ok ""
  | "guests" =>
    if !value.truthy then .ok "Number of guests is required"
    else if JSNum.lt value.toNumber (.fin 1) then .ok "Minimum 1 guest required"
    else if JSNum.lt (.fin 10) value.toNumber then .ok "Maximum 10 guests allowed"
    else .ok ""
  | "firstName" =>
    match value with
    | .str s =>
      if jsTrim s = "" then .ok "Name is required"
      else if jsLength (jsTrim s) < 2 then .ok "Name must be at least 2 characters"
      else .ok ""
    | _ => .error (.typeError "value.trim is not a function")
  | "email" =>
    match value with
    | .str s =>
      if jsTrim s = "" then .ok "Email is required"
      else if !emailRegex.test s then .ok "Invalid email format"
      else .ok ""
    | _ => .error (.typeError "value.trim is not a function")
  | _ => .ok ""

/-- The three pieces of component state. -/
structure FormState where
  formData : JSObj JSValue
  errors : JSObj String
  isSubmitting : Bool
  deriving DecidableEq

/-- The state of a freshly mounted form. -/
def initialFormData : JSObj JSValue :=
  [("date", .str ""), ("time", .str ""), ("guests", .num (.fin 1)),
   ("occasion", .str "Birthday"), ("firstName", .str ""), ("email", .str "")]

/-- The state of a freshly mounted form. -/
def initialState : FormState :=
  { formData := initialFormData, errors := [], isSubmitting := false }

/-- A call the form makes to one of its collaborators. -/
inductive Call where
  | updateTimes (date : Option Int)
  | submitForm (formData : JSObj JSValue)
  | navigate (path : String) (booking : JSObj JSValue)
  deriving DecidableEq

/-- The change handler for an event whose target has the given `name` and
`value` (the value of a form control is always a string). The result is the
state once the queued updates are applied, and the calls made. The validator
never throws on a string, so no call is lost to the error branch. -/
def handleChange (env : Env) (name value : String) (s : FormState) :
    Except JSError (FormState × List Call) :=
  let formData₁ := s.formData.set name (.str value)
  let dateChange : Bool := decide (name = "date") && (JSValue.str value).truthy
  let calls := if dateChange then [Call.updateTimes (newDate env (.str value))] else []
  let formData₂ := if dateChange then formData₁.set "time" (.str "") else formData₁
  match validateField env name (.str value) with
  | .error e => .error e
  | .ok error =>
    .ok ({ s with formData := formData₂, errors := s.errors.set name error }, calls)

/-- One step of the loop of `validateForm`: validate `key` and record a
non-empty message. -/
def validateStep (env : Env) (formData : JSObj JSValue) (newErrors : JSObj String)
    (key : String) : Except JSError (JSObj String) :=
  match validateField env key (formData.prop key) with
  | .error e => .error e
  | .ok error => if error ≠ "" then .ok (newErrors.set key error) else .ok newErrors

/-- The loop of `validateForm` over a list of keys. -/
def validateKeys (env : Env) (formData : JSObj JSValue) :
    List String → JSObj String → Except JSError (JSObj String)
  | [], newErrors => .ok newErrors
  | key :: rest, newErrors =>
    match validateStep env formData newErrors key with
    | .error e => .error e
    | .ok newErrors₁ => validateKeys env formData rest newErrors₁

/-- Whole-form validation `validateForm()`: the state once `setErrors(newErrors)`
is applied, and the returned flag. -/
def validateForm (env : Env) (s : FormState) : Except JSError (FormState × Bool) :=
  match validateKeys env s.formData s.formData.keys [] with
  | .error e => .error e
  | .ok newErrors => .ok ({ s with errors := newErrors }, decide (newErrors.keys.length = 0))

/-- The message set when the booking is refused. -/
def submitFailedMessage : String := "Failed to submit booking. Please try again."

/-- The submit handler. `submitForm` is the booking collaborator; `formData` is
the value the handler closed over, the draft of the state `s`. The result is
the state once the queued updates are applied, and the calls made. -/
def handleSubmit (env : Env) (submitForm : JSObj JSValue → JSValue) (s : FormState) :
    Except JSError (FormState × List Call) :=
  match validateForm env s with
  | .error e => .error e
  | .ok (s₁, valid) =>
    if !valid then .ok (s₁, [])
    else
      let s₂ := { s₁ with isSubmitting := true }
      let success := submitForm s.formData
      let s₃ := { s₂ with isSubmitting := false }
      if success.truthy then
        .ok (s₃, [Call.submitForm s.formData, Call.navigate "/confirmed" s.formData])
      else
        .ok ({ s₃ with errors := s₃.errors.set "submit" submitFailedMessage },
          [Call.submitForm s.formData])

/-- Does every `firstName` and `email` property hold a string? Every draft the
form can reach does; on any other value `value.trim()` throws. -/
def stringFields (formData : JSObj JSValue) : Bool :=
  formData.all fun p =>
    match p.2 with
    | .str _ => true
    | _ => decide (p.1 ≠ "firstName" ∧ p.1 ≠ "email")

/-- Is the call a call of the booking collaborator? -/
def Call.isSubmitForm : Call → Bool
  | .submitForm _ => true
  | _ => false

/-- Is the call a navigation? -/
def Call.isNavigate : Call → Bool
  | .navigate _ _ => true
  | _ => false

/-- The message a failing field contributes to the error map: the validator's
message when it is non-empty. -/
def failingMessage (env : Env) (formData : JSObj JSValue) (key : String) : Option String :=
  match validateField env key (formData.prop key) with
  | .ok error => if error ≠ "" then some error else none
  | .error _ => none

/-! ## Sample surroundings -/

/-- Noon of 4 November 2026 in New York (UTC−05:00): 17:00 UTC. An engine that
reads no date text beyond the standard forms. -/
def newYorkNoon : Env :=
  { now := 1793811600000, localTZA := fun _ _ => -18000000, fallbackParse := fun _ => none }

/-- Noon of 4 November 2026 in Tokyo (UTC+09:00): 03:00 UTC. -/
def tokyoNoon : Env :=
  { now := 1793761200000, localTZA := fun _ _ => 32400000, fallbackParse := fun _ => none }

/-- The draft of the submission scenarios: a date, `18:00`, four guests,
`Birthday`, `John`, `john@example.com`. -/
def scenarioDraft : JSObj JSValue :=
  [("date", .str "2026-11-05"), ("time", .str "18:00"), ("guests", .str "4"),
   ("occasion", .str "Birthday"), ("firstName", .str "John"),
   ("email", .str "john@example.com")]

/-- A booking collaborator that accepts every booking. -/
def acceptAll : JSObj JSValue → JSValue := fun _ => .bool true

/-- A booking collaborator that refuses every booking. -/
def refuseAll : JSObj JSValue → JSValue := fun _ => .bool false

/-! ## Reference notions used to state the properties -/

/-- The shape of an accepted e-mail address, in words: no white space, exactly
one `@` with at least one character before it, and after the `@` a `.` that is
neither the first nor the last character of that part. -/
def EmailShape (v : List Char) : Prop :=
  (∀ c ∈ v, isJsWhitespace c = false) ∧ v.count '@' = 1 ∧
    ∃ loc dom : List Char, v = loc ++ '@' :: dom ∧ loc ≠ [] ∧
      ∃ i : Nat, 0 < i ∧ i + 1 < dom.length ∧ dom[i]? = some '.'

/-- A text of digits, possibly after a minus sign. -/
def SignedDigits (cs : List Char) : Prop :=
  ∀ c ∈ cs, isDigit c = true ∨ c = '-'

/-- Day number of the current calendar day in the local time zone:
Day(LocalTime(now)). -/
def localToday (env : Env) : Int := (env.now + env.localTZA env.now true) / msPerDay

/-- A draft on which every validator returns the empty message. -/
def AllFieldsValid (env : Env) (formData : JSObj JSValue) : Prop :=
  ∀ k ∈ formData.keys, validateField env k (formData.prop k) = .ok ""

/-! ## The application: available times -/

/-- What an action carries and the time-slot provider receives: a Date, given
by its time value (`none` is an Invalid Date), or any other value; an absent
payload is `undefined`. -/
inductive Payload where
  | date (timeValue : Option Int)
  | other (value : JSValue)
  deriving DecidableEq

/-- An action dispatched to the reducer. -/
structure Action where
  type : String
  payload : Payload
  deriving DecidableEq

/-- The time-slot provider of `src/utils/api.js`: the same slots for every date. -/
def fetchAPI : Payload → List String := fun _ =>
  ["11:00", "12:00", "13:00", "14:00", "15:00", "16:00", "17:00", "18:00", "19:00", "20:00",
   "21:00", "22:00"]

/-- The reducer `timesReducer(state, action)` over a time-slot provider: the new
state, and the arguments of the calls it made to the provider. -/
def timesReducer (env : Env) (provider : Payload → List String) (state : List String)
    (action : Action) : List String × List Payload :=
  match action.type with
  | "UPDATE_TIMES" => (provider action.payload, [action.payload])
  | "INIT_TIMES" => (provider (.date (some env.now)), [.date (some env.now)])
  | _ => (state, [])

/-- The form together with the list of available times held by `App`. -/
structure AppState where
  form : FormState
  availableTimes : List String
  deriving DecidableEq

/-- The state of a freshly mounted application: the reducer state is
initialised with the provider's slots for `new Date()`. -/
def appInit (env : Env) (provider : Payload → List String) : AppState :=
  { form := initialState, availableTimes := provider (.date (some env.now)) }

/-- The effect of the calls of a handler on the available times: `updateTimes`
dispatches `UPDATE_TIMES` with the date; the other calls leave the list alone. -/
def applyCalls (env : Env) (provider : Payload → List String) :
    List String → List Call → List String
  | times, [] => times
  | times, .updateTimes date :: rest =>
    applyCalls env provider
      (timesReducer env provider times { type := "UPDATE_TIMES", payload := .date date }).1 rest
  | times, _ :: rest => applyCalls env provider times rest

/-- A user event on the form. -/
inductive Event where
  | change (name value : String)
  | submit
  deriving DecidableEq

/-- One event handled by the application. -/
def appStep (env : Env) (provider : Payload → List String)
    (submitForm : JSObj JSValue → JSValue) (a : AppState) : Event → Except JSError AppState
  | .change name value =>
    match handleChange env name value a.form with
    | .error e => .error e
    | .ok (form, calls) =>
      .ok { form := form, availableTimes := applyCalls env provider a.availableTimes calls }
  | .submit =>
    match handleSubmit env submitForm a.form with
    | .error e => .error e
    | .ok (form, calls) =>
      .ok { form := form, availableTimes := applyCalls env provider a.availableTimes calls }

/-- What the controls let the user do: the time select offers the empty option
and the available times only. -/
def Event.Offered (a : AppState) : Event → Prop
  | .change name value => name = "time" → value = "" ∨ value ∈ a.availableTimes
  | .submit => True

/-- The states the application can reach from a fresh mount. Every event has its
own clock reading and its own outcome of the booking collaborator. -/
inductive Reachable (provider : Payload → List String) : AppState → Prop
  | init (env : Env) : Reachable provider (appInit env provider)
  | step {a a' : AppState} (env : Env) (submitForm : JSObj JSValue → JSValue) (e : Event) :
      Reachable provider a → e.Offered a → appStep env provider submitForm a e = .ok a' →
      Reachable provider a'

/-- The draft's time is empty or one of the available times. -/
def TimeAvailable (a : AppState) : Prop :=
  ∃ t : String, a.form.formData.prop "time" = .str t ∧ (t = "" ∨ t ∈ a.availableTimes)

/-- An event that is neither a change of the date nor a change of the time. -/
def Event.OtherField : Event → Prop
  | .change name _ => name ≠ "date" ∧ name ≠ "time"
  | .submit => True

/-- A run of events, each with its own clock reading and booking collaborator. -/
def runEvents (provider : Payload → List String) :
    AppState → List (Env × (JSObj JSValue → JSValue) × Event) → Except JSError AppState
  | a, [] => .ok a
  | a, (env, submitForm, e) :: rest =>
    match appStep env provider submitForm a e with
    | .error err => .error err
    | .ok a' => runEvents provider a' rest

/-- The draft holds each of the six fields of the form. -/
def HasFormKeys (d : JSObj JSValue) : Prop :=
  ∀ k ∈ ["date", "time", "guests", "occasion", "firstName", "email"], k ∈ d.keys

/-- The situation after a date with no slots was picked: the draft is one of the
form, its time is present and empty, and no time is available. -/
def TimeBlocked (a : AppState) : Prop :=
  stringFields a.form.formData = true ∧ "time" ∈ a.form.formData.keys ∧
    a.form.formData.prop "time" = .str "" ∧ a.availableTimes = []

/-- A time-slot provider with no slot on any date. -/
def noSlots : Payload → List String := fun _ => []

/-- The field constraints of the data model, in its words: `date` names a real
calendar date, `time` is non-empty, `guests` denotes an integer from 1 to 10,
`firstName` has trimmed length at least 2, and `email` has the address shape. -/
def FieldConstraints (d : JSObj JSValue) : Prop :=
  (∃ (s : String) (y m dd : Nat), d.prop "date" = .str s ∧
    isoDateOnly s.data = some (y, m, dd) ∧ 1 ≤ m ∧ m ≤ 12 ∧ 1 ≤ dd ∧ dd ≤ daysInMonth y m) ∧
  (∃ t : String, d.prop "time" = .str t ∧ t ≠ "") ∧
  (∃ g : Int, (d.prop "guests").toNumber = .fin (g : ℚ) ∧ 1 ≤ g ∧ g ≤ 10) ∧
  (∃ v : String, d.prop "firstName" = .str v ∧ 2 ≤ jsLength (jsTrim v)) ∧
  (∃ v : String, d.prop "email" = .str v ∧ EmailShape v.data)

/-- The scenario draft with two and a half guests. -/
def fractionalGuestsDraft : JSObj JSValue :=
  [("date", .str "2026-11-05"), ("time", .str "18:00"), ("guests", .str "2.5"),
   ("occasion", .str "Birthday"), ("firstName", .str "John"),
   ("email", .str "john@example.com")]

/-- The scenario draft with a date text that names no date. -/
def unreadableDateDraft : JSObj JSValue :=
  [("date", .str "tomorrow"), ("time", .str "18:00"), ("guests", .str "4"),
   ("occasion", .str "Birthday"), ("firstName", .str "John"),
   ("email", .str "john@example.com")]

/-! ## Strings: lemmas -/

theorem utf16Units_pos (c : Char) : 1 ≤ utf16Units c := by
  unfold utf16Units; split <;> omega

theorem unitLength_eq_zero (cs : List Char) : unitLength cs = 0 ↔ cs = [] := by
  cases cs with
  | nil => simp [unitLength]
  | cons c cs =>
    have := utf16Units_pos c
    simp [unitLength]; omega

theorem jsTrim_eq_empty (s : String) : jsTrim s = "" ↔ jsLength (jsTrim s) = 0 := by
  rw [jsLength, unitLength_eq_zero]
  constructor
  · intro h; rw [h]
  · intro h; exact String.ext h

/-- C9. `validateField('firstName', v)` is "Name is required" when the trimmed
value is empty, "Name must be at least 2 characters" when the trimmed value has
length 1, and the empty message exactly when the trimmed length is at least 2
(length as the `length` property counts it, in UTF-16 code units). -/
theorem validateField_firstName (env : Env) (v : String) :
    (jsTrim v = "" → validateField env "firstName" (.str v) = .ok "Name is required") ∧
    (jsLength (jsTrim v) = 1 →
      validateField env "firstName" (.str v) = .ok "Name must be at least 2 characters") ∧
    (validateField env "firstName" (.str v) = .ok "" ↔ 2 ≤ jsLength (jsTrim v)) := by
  have h0 := jsTrim_eq_empty v
  refine ⟨?_, ?_, ?_⟩
  · intro h; simp [validateField, h]
  · intro h
    have hne : jsTrim v ≠ "" := by intro he; rw [h0] at he; omega
    simp [validateField, hne, h]
  · by_cases he : jsTrim v = ""
    · have h2 : jsLength "" = 0 := by decide
      simp [validateField, he]; omega
    · by_cases hl : jsLength (jsTrim v) < 2
      · simp [validateField, he, hl]
      · simp [validateField, he, hl]; omega

theorem validateField_firstName_witness :
    (jsTrim " \t " = "" → validateField ⟨0, fun _ _ => 0, fun _ => none⟩ "firstName" (.str " \t ")
      = .ok "Name is required") ∧
    (jsLength (jsTrim " J ") = 1 →
      validateField ⟨0, fun _ _ => 0, fun _ => none⟩ "firstName" (.str " J ")
        = .ok "Name must be at least 2 characters") ∧
    jsLength (jsTrim " Jo ") = 2 ∧
    validateField ⟨0, fun _ _ => 0, fun _ => none⟩ "firstName" (.str " Jo ") = .ok "" :=
  ⟨(validateField_firstName _ " \t ").1, (validateField_firstName _ " J ").2.1, by decide,
    (validateField_firstName _ " Jo ").2.2.mpr (by decide)⟩

/-! ## Regular expressions: the matcher decides the declarative meaning -/

namespace RegExp

theorem matches_nil_of_nullable : ∀ r : RegExp, nullable r = true → Matches r []
  | never, h => by simp [nullable] at h
  | empty, _ => Matches.empty
  | cls _, h => by simp [nullable] at h
  | alt a b, h => by
    simp only [nullable, Bool.or_eq_true] at h
    rcases h with h | h
    · exact Matches.altL (matches_nil_of_nullable a h)
    · exact Matches.altR (matches_nil_of_nullable b h)
  | cat a b, h => by
    simp only [nullable, Bool.and_eq_true] at h
    have := Matches.cat (matches_nil_of_nullable a h.1) (matches_nil_of_nullable b h.2)
    simpa using this
  | star _, _ => Matches.starNil

theorem nullable_of_matches_nil {r : RegExp} {w : List Char} (h : Matches r w) :
    w = [] → nullable r = true := by
  induction h with
  | empty => intro _; rfl
  | cls _ => intro hw; simp at hw
  | altL _ ih => intro hw; simp [nullable, ih hw]
  | altR _ ih => intro hw; simp [nullable, ih hw]
  | cat _ _ iha ihb =>
    intro hw
    rw [List.append_eq_nil] at hw
    simp [nullable, iha hw.1, ihb hw.2]
  | starNil => intro _; rfl
  | starCons _ _ _ _ => intro _; rfl

theorem nullable_iff (r : RegExp) : nullable r = true ↔ Matches r [] :=
  ⟨matches_nil_of_nullable r, fun h => nullable_of_matches_nil h rfl⟩

theorem matches_of_deriv : ∀ (r : RegExp) (c : Char) (w : List Char),
    Matches (deriv r c) w → Matches r (c :: w)
  | never, _, _, h => by cases h
  | empty, _, _, h => by cases h
  | cls p, c, w, h => by
    by_cases hp : p c = true
    · simp only [deriv, hp, if_true] at h
      cases h
      exact Matches.cls hp
    · simp only [deriv, hp] at h
      cases h
  | alt a b, c, w, h => by
    cases h with
    | altL h => exact Matches.altL (matches_of_deriv a c w h)
    | altR h => exact Matches.altR (matches_of_deriv b c w h)
  | cat a b, c, w, h => by
    by_cases hn : nullable a = true
    · simp only [deriv, hn, if_true] at h
      cases h with
      | altL h =>
        cases h with
        | cat hu hv => exact Matches.cat (matches_of_deriv a c _ hu) hv
      | altR h =>
        have := Matches.cat (matches_nil_of_nullable a hn) (matches_of_deriv b c w h)
        simpa using this
    · simp only [deriv, hn] at h
      cases h with
      | cat hu hv => exact Matches.cat (matches_of_deriv a c _ hu) hv
  | star a, c, w, h => by
    cases h with
    | cat hu hv => exact Matches.starCons (matches_of_deriv a c _ hu) hv

theorem deriv_of_matches {r : RegExp} {x : List Char} (h : Matches r x) :
    ∀ (c : Char) (w : List Char), x = c :: w → Matches (deriv r c) w := by
  induction h with
  | empty => intro c w hx; simp at hx
  | @cls p d hp =>
    intro c w hx
    simp only [List.cons.injEq] at hx
    obtain ⟨rfl, rfl⟩ := hx
    simp only [deriv, hp, if_true]
    exact Matches.empty
  | altL _ ih => intro c w hx; exact Matches.altL (ih c w hx)
  | altR _ ih => intro c w hx; exact Matches.altR (ih c w hx)
  | @cat a b u v hu hv iha ihb =>
    intro c w hx
    cases u with
    | nil =>
      have hn : nullable a = true := nullable_of_matches_nil hu rfl
      simp only [deriv, hn, if_true]
      exact Matches.altR (ihb c w (by simpa using hx))
    | cons d u' =>
      simp only [List.cons_append, List.cons.injEq] at hx
      obtain ⟨rfl, rfl⟩ := hx
      have h1 : Matches (RegExp.cat (deriv a d) b) (u' ++ v) :=
        Matches.cat (iha d u' rfl) hv
      by_cases hn : nullable a = true
      · simp only [deriv, hn, if_true]
        exact Matches.altL h1
      · simp only [deriv, hn]
        exact h1
  | starNil => intro c w hx; simp at hx
  | @starCons a u v hu hv iha ihv =>
    intro c w hx
    cases u with
    | nil => exact ihv c w (by simpa using hx)
    | cons d u' =>
      simp only [List.cons_append, List.cons.injEq] at hx
      obtain ⟨rfl, rfl⟩ := hx
      exact Matches.cat (iha d u' rfl) hv

theorem deriv_iff (r : RegExp) (c : Char) (w : List Char) :
    Matches (deriv r c) w ↔ Matches r (c :: w) :=
  ⟨matches_of_deriv r c w, fun h => deriv_of_matches h c w rfl⟩

/-- The derivative matcher accepts exactly the texts the expression matches. -/
theorem testChars_iff : ∀ (w : List Char) (r : RegExp), testChars r w = true ↔ Matches r w
  | [], r => by simp [testChars, nullable_iff]
  | c :: w, r => by
    rw [testChars, testChars_iff w (deriv r c), deriv_iff]

theorem matches_cat_iff (a b : RegExp) (w : List Char) :
    Matches (cat a b) w ↔ ∃ u v, w = u ++ v ∧ Matches a u ∧ Matches b v := by
  constructor
  · intro h
    cases h with
    | cat hu hv => exact ⟨_, _, rfl, hu, hv⟩
  · rintro ⟨u, v, rfl, hu, hv⟩
    exact Matches.cat hu hv

theorem matches_cls_iff (p : Char → Bool) (w : List Char) :
    Matches (cls p) w ↔ ∃ c, w = [c] ∧ p c = true := by
  constructor
  · intro h
    cases h with
    | cls hp => exact ⟨_, rfl, hp⟩
  · rintro ⟨c, rfl, hp⟩
    exact Matches.cls hp

theorem matches_lit_iff (c : Char) (w : List Char) : Matches (lit c) w ↔ w = [c] := by
  unfold lit
  rw [matches_cls_iff]
  constructor
  · rintro ⟨d, rfl, hd⟩
    simp only [beq_iff_eq] at hd
    rw [hd]
  · rintro rfl
    exact ⟨c, rfl, by simp⟩

theorem all_of_matches_star_cls {p : Char → Bool} {r : RegExp} {w : List Char}
    (h : Matches r w) : r = star (cls p) → ∀ c ∈ w, p c = true := by
  induction h with
  | empty => intro hr; cases hr
  | cls _ => intro hr; cases hr
  | altL _ _ => intro hr; cases hr
  | altR _ _ => intro hr; cases hr
  | cat _ _ _ _ => intro hr; cases hr
  | starNil => intro _ c hc; simp at hc
  | @starCons a u v hu _ _ ihv =>
    intro hr c hc
    cases hr
    rw [List.mem_append] at hc
    rcases hc with hc | hc
    · obtain ⟨d, rfl, hd⟩ := (matches_cls_iff p u).mp hu
      simp only [List.mem_singleton] at hc
      rw [hc]; exact hd
    · exact ihv rfl c hc

theorem matches_star_cls_iff (p : Char → Bool) (w : List Char) :
    Matches (star (cls p)) w ↔ ∀ c ∈ w, p c = true := by
  constructor
  · intro h; exact all_of_matches_star_cls h rfl
  · intro h
    induction w with
    | nil => exact Matches.starNil
    | cons c w ih =>
      have h1 : Matches (cls p) [c] := Matches.cls (h c (List.mem_cons_self c w))
      have h2 := ih (fun d hd => h d (List.mem_cons_of_mem c hd))
      exact Matches.starCons h1 h2

theorem matches_plus_cls_iff (p : Char → Bool) (w : List Char) :
    Matches (plus (cls p)) w ↔ w ≠ [] ∧ ∀ c ∈ w, p c = true := by
  unfold plus
  rw [matches_cat_iff]
  constructor
  · rintro ⟨u, v, rfl, hu, hv⟩
    obtain ⟨c, rfl, hc⟩ := (matches_cls_iff p u).mp hu
    rw [matches_star_cls_iff] at hv
    refine ⟨by simp, ?_⟩
    intro d hd
    simp only [List.singleton_append, List.mem_cons] at hd
    rcases hd with rfl | hd
    · exact hc
    · exact hv d hd
  · rintro ⟨hne, hall⟩
    cases w with
    | nil => exact absurd rfl hne
    | cons c w =>
      refine ⟨[c], w, rfl, Matches.cls (hall c (List.mem_cons_self c w)), ?_⟩
      rw [matches_star_cls_iff]
      exact fun d hd => hall d (List.mem_cons_of_mem c hd)

end RegExp

/-! ## The e-mail validator -/

theorem notSpaceOrAt_iff (c : Char) :
    notSpaceOrAt c = true ↔ isJsWhitespace c = false ∧ c ≠ '@' := by
  simp [notSpaceOrAt]

/-- The texts matched by the e-mail pattern, as a decomposition. -/
theorem matches_emailRegex_iff (w : List Char) :
    RegExp.Matches emailRegex w ↔
      ∃ a b c : List Char, w = a ++ '@' :: (b ++ '.' :: c) ∧
        (a ≠ [] ∧ ∀ x ∈ a, notSpaceOrAt x = true) ∧
        (b ≠ [] ∧ ∀ x ∈ b, notSpaceOrAt x = true) ∧
        (c ≠ [] ∧ ∀ x ∈ c, notSpaceOrAt x = true) := by
  unfold emailRegex
  simp only [RegExp.matches_cat_iff, RegExp.matches_plus_cls_iff, RegExp.matches_lit_iff]
  constructor
  · rintro ⟨a, _, rfl, ha, _, _, rfl, rfl, b, _, rfl, hb, _, c, rfl, rfl, hc⟩
    exact ⟨a, b, c, by simp, ha, hb, hc⟩
  · rintro ⟨a, b, c, rfl, ha, hb, hc⟩
    exact ⟨a, _, rfl, ha, ['@'], _, rfl, rfl, b, _, rfl, hb, ['.'], c, rfl, rfl, hc⟩

theorem emailShape_of_parts {a b c : List Char}
    (ha : a ≠ [] ∧ ∀ x ∈ a, notSpaceOrAt x = true)
    (hb : b ≠ [] ∧ ∀ x ∈ b, notSpaceOrAt x = true)
    (hc : c ≠ [] ∧ ∀ x ∈ c, notSpaceOrAt x = true) :
    EmailShape (a ++ '@' :: (b ++ '.' :: c)) := by
  have hcount : ∀ l : List Char, (∀ x ∈ l, notSpaceOrAt x = true) → l.count '@' = 0 := by
    intro l hl
    rw [List.count_eq_zero]
    intro hmem
    exact ((notSpaceOrAt_iff _).mp (hl _ hmem)).2 rfl
  refine ⟨?_, ?_, a, b ++ '.' :: c, rfl, ha.1, b.length, ?_, ?_, ?_⟩
  · intro x hx
    simp only [List.mem_append, List.mem_cons] at hx
    rcases hx with hx | rfl | hx | rfl | hx
    · exact ((notSpaceOrAt_iff _).mp (ha.2 x hx)).1
    · decide
    · exact ((notSpaceOrAt_iff _).mp (hb.2 x hx)).1
    · decide
    · exact ((notSpaceOrAt_iff _).mp (hc.2 x hx)).1
  · have h1 := hcount a ha.2
    have h2 := hcount b hb.2
    have h3 := hcount c hc.2
    have h4 : ('.' == '@') = false := by decide
    simp [List.count_append, List.count_cons, h1, h2, h3, h4]
  · exact List.length_pos.mpr hb.1
  · have := List.length_pos.mpr hc.1
    simp only [List.length_append, List.length_cons]
    omega
  · rw [List.getElem?_append_right (Nat.le_refl _)]
    simp

theorem parts_of_emailShape {w : List Char} (h : EmailShape w) :
    ∃ a b c : List Char, w = a ++ '@' :: (b ++ '.' :: c) ∧
      (a ≠ [] ∧ ∀ x ∈ a, notSpaceOrAt x = true) ∧
      (b ≠ [] ∧ ∀ x ∈ b, notSpaceOrAt x = true) ∧
      (c ≠ [] ∧ ∀ x ∈ c, notSpaceOrAt x = true) := by
  obtain ⟨hws, hcnt, loc, dom, rfl, hloc, i, hi0, hi1, hdot⟩ := h
  have hcl : loc.count '@' = 0 ∧ dom.count '@' = 0 := by
    simp only [List.count_append, List.count_cons, beq_self_eq_true, if_true] at hcnt
    omega
  have hilt : i < dom.length := by omega
  have hget : dom[i] = '.' := by
    rw [List.getElem?_eq_getElem hilt] at hdot
    exact Option.some.inj hdot
  have hsplit : dom = dom.take i ++ '.' :: dom.drop (i + 1) := by
    conv_lhs => rw [← List.take_append_drop i dom, List.drop_eq_getElem_cons hilt, hget]
  have hok : ∀ l : List Char, (∀ x ∈ l, x ∈ loc ++ '@' :: dom) → l.count '@' = 0 →
      ∀ x ∈ l, notSpaceOrAt x = true := by
    intro l hsub hc x hx
    rw [notSpaceOrAt_iff]
    refine ⟨hws x (hsub x hx), ?_⟩
    rintro rfl
    exact (List.count_eq_zero.mp hc) hx
  have hdomsub : ∀ l : List Char, (∀ x ∈ l, x ∈ dom) →
      (∀ x ∈ l, x ∈ loc ++ '@' :: dom) ∧ l.count '@' = 0 := by
    intro l hl
    refine ⟨fun x hx => ?_, ?_⟩
    · simp only [List.mem_append, List.mem_cons]
      exact Or.inr (Or.inr (hl x hx))
    · rw [List.count_eq_zero]
      intro hmem
      exact (List.count_eq_zero.mp hcl.2) (hl _ hmem)
  refine ⟨loc, dom.take i, dom.drop (i + 1), ?_, ⟨hloc, ?_⟩, ⟨?_, ?_⟩, ⟨?_, ?_⟩⟩
  · rw [← hsplit]
  · exact hok loc (fun x hx => List.mem_append_left _ hx) hcl.1
  · intro he
    have := congrArg List.length he
    simp only [List.length_take, List.length_nil] at this
    omega
  · have := hdomsub (dom.take i) (fun x hx => List.mem_of_mem_take hx)
    exact hok _ this.1 this.2
  · intro he
    have := congrArg List.length he
    simp only [List.length_drop, List.length_nil] at this
    omega
  · have := hdomsub (dom.drop (i + 1)) (fun x hx => List.mem_of_mem_drop hx)
    exact hok _ this.1 this.2

/-- The e-mail pattern accepts exactly the texts of the shape described in words. -/
theorem emailRegex_test_iff (v : String) : emailRegex.test v = true ↔ EmailShape v.data := by
  unfold RegExp.test
  rw [RegExp.testChars_iff, matches_emailRegex_iff]
  constructor
  · rintro ⟨a, b, c, hv, ha, hb, hc⟩
    rw [hv]
    exact emailShape_of_parts ha hb hc
  · exact parts_of_emailShape

theorem dropWhile_eq_self_of_head {p : Char → Bool} :
    ∀ cs : List Char, (∀ c ∈ cs.head?, p c = false) → cs.dropWhile p = cs
  | [], _ => rfl
  | c :: cs, h => by
    have := h c (by simp)
    simp [List.dropWhile, this]

theorem trimChars_of_no_whitespace (cs : List Char)
    (h : ∀ c ∈ cs, isJsWhitespace c = false) : trimChars cs = cs := by
  unfold trimChars
  have h1 : cs.dropWhile isJsWhitespace = cs :=
    dropWhile_eq_self_of_head cs (fun c hc => h c (List.mem_of_mem_head? hc))
  have h2 : cs.reverse.dropWhile isJsWhitespace = cs.reverse :=
    dropWhile_eq_self_of_head cs.reverse
      (fun c hc => h c (List.mem_reverse.mp (List.mem_of_mem_head? hc)))
  rw [h1, h2]
  exact List.reverse_reverse cs

theorem jsTrim_eq_empty_iff (s : String) : jsTrim s = "" ↔ trimChars s.data = [] := by
  unfold jsTrim
  constructor
  · intro h; exact congrArg String.data h
  · intro h; rw [h]

theorem jsTrim_ne_empty_of_emailShape {v : String} (h : EmailShape v.data) : jsTrim v ≠ "" := by
  rw [Ne, jsTrim_eq_empty_iff, trimChars_of_no_whitespace _ h.1]
  obtain ⟨_, _, loc, dom, hv, _⟩ := h
  rw [hv]
  simp

theorem email_validator_unfold (env : Env) (v : String) :
    validateField env "email" (.str v) =
      if jsTrim v = "" then .ok "Email is required"
      else if emailRegex.test v = true then .ok "" else .ok "Invalid email format" := by
  by_cases h1 : jsTrim v = ""
  · simp [validateField, h1]
  · by_cases h2 : emailRegex.test v = true
    · simp [validateField, h1, h2]
    · simp [validateField, h1, h2]

/-- C8. `validateField('email', v)` is the empty message exactly when `v` has no
white space, exactly one `@` with a character before it, and after the `@` a
`.` that is neither first nor last there; it is "Email is required" exactly
when `v` is empty after trimming and "Invalid email format" in every other
case. `a@b.com` is accepted; `a@b`, `a.com`, `invalid-email` and the empty text
are rejected. -/
theorem validateField_email (env : Env) (v : String) :
    (validateField env "email" (.str v) = .ok "" ↔ EmailShape v.data) ∧
    (validateField env "email" (.str v) = .ok "Email is required" ↔ jsTrim v = "") ∧
    (jsTrim v ≠ "" → ¬ EmailShape v.data →
      validateField env "email" (.str v) = .ok "Invalid email format") ∧
    validateField env "email" (.str "a@b.com") = .ok "" ∧
    validateField env "email" (.str "a@b") = .ok "Invalid email format" ∧
    validateField env "email" (.str "a.com") = .ok "Invalid email format" ∧
    validateField env "email" (.str "invalid-email") = .ok "Invalid email format" ∧
    validateField env "email" (.str "") = .ok "Email is required" := by
  refine ⟨?_, ?_, ?_, ?_, ?_, ?_, ?_, ?_⟩
  · rw [email_validator_unfold, ← emailRegex_test_iff]
    constructor
    · intro h
      by_cases h1 : jsTrim v = ""
      · simp [h1] at h
      · by_cases h2 : emailRegex.test v = true
        · exact h2
        · simp [h1, h2] at h
    · intro h
      have h1 := jsTrim_ne_empty_of_emailShape ((emailRegex_test_iff v).mp h)
      simp [h1, h]
  · rw [email_validator_unfold]
    by_cases h1 : jsTrim v = ""
    · simp [h1]
    · by_cases h2 : emailRegex.test v = true
      · simp [h1, h2]
      · simp [h1, h2]
  · intro h1 h2
    rw [← emailRegex_test_iff] at h2
    rw [email_validator_unfold]
    simp [h1, h2]
  · rw [email_validator_unfold]; decide
  · rw [email_validator_unfold]; decide
  · rw [email_validator_unfold]; decide
  · rw [email_validator_unfold]; decide
  · rw [email_validator_unfold]; decide

theorem validateField_email_witness :
    ¬ EmailShape "john@example".data ∧
    validateField ⟨0, fun _ _ => 0, fun _ => none⟩ "email" (.str "john@example")
      = .ok "Invalid email format" :=
  have h : ¬ EmailShape "john@example".data := by
    rw [← emailRegex_test_iff]; decide
  ⟨h, (validateField_email _ "john@example").2.2.1 (by decide) h⟩

/-! ## Rounding: integers -/

theorem log2Fuel_spec : ∀ (fuel n : Nat), n ≤ fuel → 0 < n →
    2 ^ log2Fuel fuel n ≤ n ∧ n < 2 ^ (log2Fuel fuel n + 1)
  | 0, n, h, hn => by omega
  | fuel + 1, n, h, hn => by
    by_cases h2 : 2 ≤ n
    · have ih := log2Fuel_spec fuel (n / 2) (by omega) (by omega)
      simp only [log2Fuel, h2, if_true]
      rw [pow_succ, pow_succ, pow_succ]
      rw [pow_succ] at ih
      omega
    · have h1 : n = 1 := by omega
      subst h1
      simp [log2Fuel]

theorem log2Floor_spec (n : Nat) (hn : 0 < n) :
    2 ^ log2Floor n ≤ n ∧ n < 2 ^ (log2Floor n + 1) :=
  log2Fuel_spec n n (Nat.le_refl n) hn

theorem roundHalfEven_one (x : Nat) : roundHalfEven x 1 = x := by
  have h : x % 1 = 0 := Nat.mod_one x
  simp [roundHalfEven, h]

theorem div_le_roundHalfEven (n d : Nat) : n / d ≤ roundHalfEven n d := by
  unfold roundHalfEven
  dsimp only
  split_ifs <;> omega

theorem binaryExponent_one (g : Nat) (hg : 0 < g) : binaryExponent g 1 = (log2Floor g : Int) := by
  have h1 : log2Floor 1 = 0 := by decide
  have hs := (log2Floor_spec g hg).1
  unfold binaryExponent
  simp only [h1, Nat.cast_zero, sub_zero, Int.natCast_nonneg, if_true, Int.toNat_ofNat, one_mul, hs]

theorem roundMagnitude_small (g : Nat) (hg : 0 < g) (hlt : g < 2 ^ 52) :
    roundMagnitude g 1 = .fin (g : ℚ) := by
  have hs := log2Floor_spec g hg
  have he : log2Floor g < 52 := by
    by_contra hc
    have : 2 ^ 52 ≤ 2 ^ log2Floor g := Nat.pow_le_pow_right (by decide) (by omega)
    omega
  unfold roundMagnitude
  rw [binaryExponent_one g hg]
  have hmax : max (log2Floor g : Int) (-1022) = (log2Floor g : Int) := by omega
  have hneg : ¬ (0 : Int) ≤ (log2Floor g : Int) - 52 := by omega
  simp only [hmax, hneg, if_false, roundHalfEven_one]
  congr 1
  have hpos : ((2 ^ (-((log2Floor g : Int) - 52)).toNat : Nat) : ℚ) ≠ 0 := by positivity
  rw [Nat.cast_mul, mul_div_assoc, div_self hpos, mul_one]

theorem roundMagnitude_large (g : Nat) (hge : 2 ^ 52 ≤ g) :
    roundMagnitude g 1 = .posInf ∨
      ∃ v : Nat, roundMagnitude g 1 = .fin (v : ℚ) ∧ 2 ^ 52 ≤ v := by
  have hg : 0 < g := Nat.lt_of_lt_of_le (by decide) hge
  have hs := log2Floor_spec g hg
  have he : 52 ≤ log2Floor g := by
    by_contra hc
    have : 2 ^ (log2Floor g + 1) ≤ 2 ^ 52 := Nat.pow_le_pow_right (by decide) (by omega)
    omega
  obtain ⟨k, hk⟩ : ∃ k, log2Floor g = 52 + k := ⟨log2Floor g - 52, by omega⟩
  unfold roundMagnitude
  rw [binaryExponent_one g hg]
  have hmax : max (log2Floor g : Int) (-1022) = (log2Floor g : Int) := by omega
  have hnn : (0 : Int) ≤ (log2Floor g : Int) - 52 := by omega
  have htn : ((log2Floor g : Int) - 52).toNat = k := by omega
  simp only [hmax, hnn, if_true, htn, one_mul]
  have hdiv : 2 ^ 52 ≤ g / 2 ^ k := by
    rw [Nat.le_div_iff_mul_le (Nat.pos_pow_of_pos k (by decide))]
    rw [← pow_add, ← hk]
    exact hs.1
  have hr := div_le_roundHalfEven g (2 ^ k)
  have hv : 2 ^ 52 ≤ roundHalfEven g (2 ^ k) * 2 ^ k :=
    Nat.le_trans (Nat.le_trans hdiv hr) (Nat.le_mul_of_pos_right _ (Nat.pos_pow_of_pos k (by decide)))
  split
  · exact Or.inl rfl
  · exact Or.inr ⟨_, rfl, hv⟩

theorem roundToDouble_natCast (g : Nat) (hg : 0 < g) :
    roundToDouble (g : ℚ) = roundMagnitude g 1 := by
  have hpos : (0 : ℚ) < (g : ℚ) := by exact_mod_cast hg
  have hne : (g : ℚ) ≠ 0 := ne_of_gt hpos
  unfold roundToDouble
  rw [if_neg hne, if_pos hpos]
  simp

theorem roundToDouble_neg_of_pos (q : ℚ) (hq : 0 < q) :
    roundToDouble (-q) = (roundToDouble q).neg := by
  have hne : q ≠ 0 := ne_of_gt hq
  have hne' : -q ≠ 0 := neg_ne_zero.mpr hne
  have hnp : ¬ (0 : ℚ) < -q := by linarith
  unfold roundToDouble
  rw [if_neg hne', if_neg hnp, if_neg hne, if_pos hq]
  simp

/-- Comparisons of a rounded positive integer with 1 and 10. -/
theorem roundToDouble_nat_cases (g : Nat) (hg : 0 < g) :
    roundToDouble (g : ℚ) = .fin (g : ℚ) ∨ (10 < g ∧ (roundToDouble (g : ℚ) = .posInf ∨
      ∃ v : Nat, roundToDouble (g : ℚ) = .fin (v : ℚ) ∧ 10 < v)) := by
  rw [roundToDouble_natCast g hg]
  by_cases hlt : g < 2 ^ 52
  · exact Or.inl (roundMagnitude_small g hg hlt)
  · have hge : 2 ^ 52 ≤ g := by omega
    have h10 : 10 < 2 ^ 52 := by decide
    refine Or.inr ⟨by omega, ?_⟩
    rcases roundMagnitude_large g hge with h | ⟨v, hv, hvge⟩
    · exact Or.inl h
    · exact Or.inr ⟨v, hv, by omega⟩

theorem roundToDouble_int_lt_one (g : Int) :
    JSNum.lt (roundToDouble (g : ℚ)) (.fin 1) = decide (g < 1) := by
  rcases lt_trichotomy g 0 with hneg | rfl | hpos
  · obtain ⟨n, hn, rfl⟩ : ∃ n : Nat, 0 < n ∧ g = -(n : Int) := ⟨g.natAbs, by omega, by omega⟩
    have hq : (0 : ℚ) < (n : ℚ) := by exact_mod_cast hn
    have hd : decide (-(n : Int) < 1) = true := by simp; omega
    rw [Int.cast_neg, Int.cast_natCast, roundToDouble_neg_of_pos _ hq, hd]
    rcases roundToDouble_nat_cases n hn with h | ⟨_, h | ⟨v, h, hv⟩⟩
    · rw [h]; simp only [JSNum.neg, JSNum.lt, decide_eq_true_eq]; linarith
    · rw [h]; rfl
    · rw [h]
      have hv' : (0 : ℚ) ≤ (v : ℚ) := Nat.cast_nonneg v
      simp only [JSNum.neg, JSNum.lt, decide_eq_true_eq]; linarith
  · simp [roundToDouble, JSNum.lt]
  · obtain ⟨n, hn, rfl⟩ : ∃ n : Nat, 0 < n ∧ g = (n : Int) := ⟨g.natAbs, by omega, by omega⟩
    have hd : decide ((n : Int) < 1) = false := by simp; omega
    rw [Int.cast_natCast, hd]
    rcases roundToDouble_nat_cases n hn with h | ⟨_, h | ⟨v, h, hv⟩⟩
    · rw [h]
      have : (1 : ℚ) ≤ (n : ℚ) := by exact_mod_cast hn
      simp only [JSNum.lt, decide_eq_false_iff_not, not_lt]; exact this
    · rw [h]; rfl
    · rw [h]
      have : (1 : ℚ) ≤ (v : ℚ) := by exact_mod_cast (by omega : 1 ≤ v)
      simp only [JSNum.lt, decide_eq_false_iff_not, not_lt]; exact this

theorem roundToDouble_int_gt_ten (g : Int) :
    JSNum.lt (.fin 10) (roundToDouble (g : ℚ)) = decide (10 < g) := by
  rcases lt_trichotomy g 0 with hneg | rfl | hpos
  · obtain ⟨n, hn, rfl⟩ : ∃ n : Nat, 0 < n ∧ g = -(n : Int) := ⟨g.natAbs, by omega, by omega⟩
    have hq : (0 : ℚ) < (n : ℚ) := by exact_mod_cast hn
    have hd : decide ((10 : Int) < -(n : Int)) = false := by simp; omega
    rw [Int.cast_neg, Int.cast_natCast, roundToDouble_neg_of_pos _ hq, hd]
    rcases roundToDouble_nat_cases n hn with h | ⟨_, h | ⟨v, h, hv⟩⟩
    · rw [h]; simp only [JSNum.neg, JSNum.lt, decide_eq_false_iff_not, not_lt]; linarith
    · rw [h]; rfl
    · rw [h]
      have hv' : (0 : ℚ) ≤ (v : ℚ) := Nat.cast_nonneg v
      simp only [JSNum.neg, JSNum.lt, decide_eq_false_iff_not, not_lt]; linarith
  · simp [roundToDouble, JSNum.lt]
  · obtain ⟨n, hn, rfl⟩ : ∃ n : Nat, 0 < n ∧ g = (n : Int) := ⟨g.natAbs, by omega, by omega⟩
    rw [Int.cast_natCast]
    rcases roundToDouble_nat_cases n hn with h | ⟨h10, h | ⟨v, h, hv⟩⟩
    · rw [h]
      simp only [JSNum.lt, Nat.cast_lt, decide_eq_decide]
      constructor
      · intro h'; exact_mod_cast h'
      · intro h'; exact_mod_cast h'
    · rw [h]
      have hd : decide ((10 : Int) < (n : Int)) = true := by simp; omega
      rw [hd]; rfl
    · rw [h]
      have hd : decide ((10 : Int) < (n : Int)) = true := by simp; omega
      rw [hd]
      have : (10 : ℚ) < (v : ℚ) := by exact_mod_cast hv
      simp only [JSNum.lt, decide_eq_true_eq]; exact this

/-! ## The guests validator -/

theorem digitChar_spec : ∀ k : Nat, k < 10 →
    isDigit (Nat.digitChar k) = true ∧ (Nat.digitChar k).toNat - 48 = k := by
  decide

theorem digitsValue_append_singleton (xs : List Char) (c : Char) :
    digitsValue (xs ++ [c]) = 10 * digitsValue xs + (c.toNat - 48) := by
  simp [digitsValue, List.foldl_append]

/-- The digits written by the core loop of decimal printing. -/
theorem toDigitsCore_spec : ∀ (fuel n : Nat) (ds : List Char), n < fuel →
    ∃ xs : List Char, Nat.toDigitsCore 10 fuel n ds = xs ++ ds ∧ xs ≠ [] ∧
      (∀ c ∈ xs, isDigit c = true) ∧ digitsValue xs = n := by
  intro fuel
  induction fuel with
  | zero => intro n ds h; omega
  | succ fuel ih =>
    intro n ds h
    have hd := digitChar_spec (n % 10) (Nat.mod_lt n (by decide))
    by_cases h0 : n / 10 = 0
    · refine ⟨[Nat.digitChar (n % 10)], ?_, by simp, ?_, ?_⟩
      · simp [Nat.toDigitsCore, h0]
      · intro c hc
        simp only [List.mem_singleton] at hc
        rw [hc]; exact hd.1
      · have := digitsValue_append_singleton [] (Nat.digitChar (n % 10))
        simp only [List.nil_append] at this
        rw [this, hd.2]
        simp only [digitsValue, List.foldl_nil]
        omega
    · obtain ⟨xs, hxs, _, hall, hval⟩ :=
        ih (n / 10) (Nat.digitChar (n % 10) :: ds) (by omega)
      refine ⟨xs ++ [Nat.digitChar (n % 10)], ?_, by simp, ?_, ?_⟩
      · simp [Nat.toDigitsCore, h0, hxs]
      · intro c hc
        rw [List.mem_append, List.mem_singleton] at hc
        rcases hc with hc | hc
        · exact hall c hc
        · rw [hc]; exact hd.1
      · rw [digitsValue_append_singleton, hval, hd.2]
        omega

theorem natRepr_spec (n : Nat) :
    (Nat.repr n).data ≠ [] ∧ (∀ c ∈ (Nat.repr n).data, isDigit c = true) ∧
      digitsValue (Nat.repr n).data = n := by
  obtain ⟨xs, hxs, hne, hall, hval⟩ := toDigitsCore_spec (n + 1) n [] (Nat.lt_succ_self n)
  have h : (Nat.repr n).data = xs := by
    show Nat.toDigitsCore 10 (n + 1) n [] = xs
    rw [hxs, List.append_nil]
  rw [h]
  exact ⟨hne, hall, hval⟩

theorem not_whitespace_of_isDigit {c : Char} (h : isDigit c = true) :
    isJsWhitespace c = false := by
  simp only [isDigit, Bool.and_eq_true, decide_eq_true_eq] at h
  simp only [isJsWhitespace, Bool.or_eq_false_iff, Bool.and_eq_false_imp, decide_eq_false_iff_not,
    decide_eq_true_eq]
  omega

theorem trimChars_signedDigits {cs : List Char} (h : SignedDigits cs) : trimChars cs = cs := by
  apply trimChars_of_no_whitespace
  intro c hc
  rcases h c hc with h | rfl
  · exact not_whitespace_of_isDigit h
  · decide

theorem parseNonDecimal_signedDigits {cs : List Char} (h : SignedDigits cs) :
    parseNonDecimal cs = none := by
  have key : ∀ c : Char, (isDigit c = true ∨ c = '-') → c ∈ ['x', 'X', 'o', 'O', 'b', 'B'] →
      False := by
    intro c hc hmem
    simp only [List.mem_cons, List.mem_singleton, List.not_mem_nil, or_false] at hmem
    rcases hmem with rfl | rfl | rfl | rfl | rfl | rfl <;> revert hc <;> decide
  unfold parseNonDecimal
  split
  · exact (key 'x' (h 'x' (by simp)) (by simp)).elim
  · exact (key 'X' (h 'X' (by simp)) (by simp)).elim
  · exact (key 'o' (h 'o' (by simp)) (by simp)).elim
  · exact (key 'O' (h 'O' (by simp)) (by simp)).elim
  · exact (key 'b' (h 'b' (by simp)) (by simp)).elim
  · exact (key 'B' (h 'B' (by simp)) (by simp)).elim
  · rfl

theorem parseUnsignedDecimal_digits {xs : List Char} (hne : xs ≠ [])
    (hall : ∀ c ∈ xs, isDigit c = true) :
    parseUnsignedDecimal xs = some (roundToDouble (digitsValue xs : ℚ)) := by
  have hinf : xs ≠ "Infinity".data := by
    rintro rfl
    have := hall 'I' (by decide)
    revert this; decide
  have htake : xs.takeWhile isDigit = xs := List.takeWhile_eq_self_iff.mpr hall
  have hdrop : xs.dropWhile isDigit = [] := List.dropWhile_eq_nil_iff.mpr hall
  unfold parseUnsignedDecimal
  rw [if_neg hinf]
  simp only [htake, hdrop, hne, if_false, parseExponent, Option.map_some']
  simp [scale10]

theorem stringToNumber_digits {s : String} (hne : s.data ≠ [])
    (hall : ∀ c ∈ s.data, isDigit c = true) :
    stringToNumber s = roundToDouble (digitsValue s.data : ℚ) := by
  have hsd : SignedDigits s.data := fun c hc => Or.inl (hall c hc)
  unfold stringToNumber
  simp only [trimChars_signedDigits hsd, if_neg hne, parseNonDecimal_signedDigits hsd]
  split
  · rename_i r hr
    have := hall '+' (by rw [hr]; simp)
    exact absurd this (by decide)
  · rename_i r hr
    have := hall '-' (by rw [hr]; simp)
    exact absurd this (by decide)
  · rw [parseUnsignedDecimal_digits hne hall]; rfl

theorem stringToNumber_minus_digits {s : String} {xs : List Char} (hs : s.data = '-' :: xs)
    (hne : xs ≠ []) (hall : ∀ c ∈ xs, isDigit c = true) :
    stringToNumber s = (roundToDouble (digitsValue xs : ℚ)).neg := by
  have hsd : SignedDigits s.data := by
    intro c hc
    rw [hs, List.mem_cons] at hc
    rcases hc with rfl | hc
    · exact Or.inr rfl
    · exact Or.inl (hall c hc)
  have hne' : s.data ≠ [] := by rw [hs]; simp
  unfold stringToNumber
  simp only [trimChars_signedDigits hsd, if_neg hne', parseNonDecimal_signedDigits hsd]
  rw [hs]
  simp only [parseUnsignedDecimal_digits hne hall, Option.map_some', Option.getD_some]

/-- Reading back the decimal text of an integer gives the double nearest to
the integer. -/
theorem stringToNumber_decimalText (g : Int) :
    stringToNumber (decimalText g) = roundToDouble (g : ℚ) := by
  cases g with
  | ofNat m =>
    obtain ⟨hne, hall, hval⟩ := natRepr_spec m
    have h : decimalText (Int.ofNat m) = Nat.repr m := rfl
    rw [h, stringToNumber_digits hne hall, hval]
    simp
  | negSucc m =>
    obtain ⟨hne, hall, hval⟩ := natRepr_spec (m + 1)
    have h : (decimalText (Int.negSucc m)).data = '-' :: (Nat.repr (m + 1)).data := rfl
    have hq : (0 : ℚ) < ((m + 1 : Nat) : ℚ) := by exact_mod_cast Nat.succ_pos m
    rw [stringToNumber_minus_digits h hne hall, hval, ← roundToDouble_neg_of_pos _ hq]
    congr 1

theorem decimalText_ne_empty (g : Int) : decimalText g ≠ "" := by
  intro he
  have hd := congrArg String.data he
  cases g with
  | ofNat m =>
    have h : (decimalText (Int.ofNat m)).data = (Nat.repr m).data := rfl
    rw [h] at hd
    exact (natRepr_spec m).1 hd
  | negSucc m =>
    have h : (decimalText (Int.negSucc m)).data = '-' :: (Nat.repr (m + 1)).data := rfl
    rw [h] at hd
    simp at hd

theorem guests_validator_unfold (env : Env) (value : JSValue) :
    validateField env "guests" value =
      if value.truthy = false then .ok "Number of guests is required"
      else if JSNum.lt value.toNumber (.fin 1) = true then .ok "Minimum 1 guest required"
      else if JSNum.lt (.fin 10) value.toNumber = true then .ok "Maximum 10 guests allowed"
      else .ok "" := by
  simp [validateField]

theorem guests_validator_number (env : Env) (g : Int) :
    validateField env "guests" (.num (.fin g)) =
      if g = 0 then .ok "Number of guests is required"
      else if g < 1 then .ok "Minimum 1 guest required"
      else if 10 < g then .ok "Maximum 10 guests allowed"
      else .ok "" := by
  rw [guests_validator_unfold]
  have h1 : ((g : ℚ) < 1) ↔ g < 1 := by exact_mod_cast Iff.rfl
  have h10 : ((10 : ℚ) < g) ↔ 10 < g := by exact_mod_cast Iff.rfl
  simp only [JSValue.truthy, JSValue.toNumber, JSNum.lt, decide_eq_false_iff_not, ne_eq,
    not_not, Int.cast_eq_zero, decide_eq_true_eq, h1, h10]

theorem guests_validator_text (env : Env) (g : Int) :
    validateField env "guests" (.str (decimalText g)) =
      if g < 1 then .ok "Minimum 1 guest required"
      else if 10 < g then .ok "Maximum 10 guests allowed"
      else .ok "" := by
  rw [guests_validator_unfold]
  have hne := decimalText_ne_empty g
  simp only [JSValue.truthy, JSValue.toNumber, stringToNumber_decimalText,
    roundToDouble_int_lt_one, roundToDouble_int_gt_ten, ne_eq, hne,
    not_false_eq_true, decide_True, Bool.true_eq_false, if_false, decide_eq_true_eq]

/-- C7. For every integer `g`, given as a number or as its decimal text,
`validateField('guests', g)` is a non-empty message exactly when `g < 1` or
`g > 10`; as text, `g < 1` gives "Minimum 1 guest required" and `g > 10` gives
"Maximum 10 guests allowed"; an absent or empty value gives a non-empty
message. -/
theorem validateField_guests (env : Env) (g : Int) :
    (∃ m, validateField env "guests" (.num (.fin g)) = .ok m ∧ (m ≠ "" ↔ g < 1 ∨ 10 < g)) ∧
    (∃ m, validateField env "guests" (.str (decimalText g)) = .ok m ∧
      (m ≠ "" ↔ g < 1 ∨ 10 < g)) ∧
    (g < 1 → validateField env "guests" (.str (decimalText g))
      = .ok "Minimum 1 guest required") ∧
    (10 < g → validateField env "guests" (.str (decimalText g))
      = .ok "Maximum 10 guests allowed") ∧
    validateField env "guests" (.str "") = .ok "Number of guests is required" ∧
    validateField env "guests" .undefined = .ok "Number of guests is required" := by
  have e1 : ("Number of guests is required" : String) ≠ "" := by decide
  have e2 : ("Minimum 1 guest required" : String) ≠ "" := by decide
  have e3 : ("Maximum 10 guests allowed" : String) ≠ "" := by decide
  refine ⟨?_, ?_, ?_, ?_, ?_, ?_⟩
  · rw [guests_validator_number]
    by_cases h0 : g = 0
    · exact ⟨_, by rw [if_pos h0], by simp only [ne_eq, e1, not_false_eq_true, true_iff]; omega⟩
    · by_cases h1 : g < 1
      · exact ⟨_, by rw [if_neg h0, if_pos h1],
          by simp only [ne_eq, e2, not_false_eq_true, true_iff]; omega⟩
      · by_cases h10 : 10 < g
        · exact ⟨_, by rw [if_neg h0, if_neg h1, if_pos h10],
            by simp only [ne_eq, e3, not_false_eq_true, true_iff]; omega⟩
        · exact ⟨_, by rw [if_neg h0, if_neg h1, if_neg h10],
            by simp only [ne_eq, not_true_eq_false, false_iff]; omega⟩
  · rw [guests_validator_text]
    by_cases h1 : g < 1
    · exact ⟨_, by rw [if_pos h1], by simp only [ne_eq, e2, not_false_eq_true, true_iff]; omega⟩
    · by_cases h10 : 10 < g
      · exact ⟨_, by rw [if_neg h1, if_pos h10],
          by simp only [ne_eq, e3, not_false_eq_true, true_iff]; omega⟩
      · exact ⟨_, by rw [if_neg h1, if_neg h10],
          by simp only [ne_eq, not_true_eq_false, false_iff]; omega⟩
  · intro h1
    rw [guests_validator_text, if_pos h1]
  · intro h10
    have h1 : ¬ g < 1 := by omega
    rw [guests_validator_text, if_neg h1, if_pos h10]
  · rw [guests_validator_unfold]; rfl
  · rw [guests_validator_unfold]; rfl

theorem validateField_guests_witness :
    decimalText 0 = "0" ∧ decimalText 11 = "11" ∧
    validateField ⟨0, fun _ _ => 0, fun _ => none⟩ "guests" (.str "0")
      = .ok "Minimum 1 guest required" ∧
    validateField ⟨0, fun _ _ => 0, fun _ => none⟩ "guests" (.str "11")
      = .ok "Maximum 10 guests allowed" :=
  ⟨by decide, by decide, (validateField_guests _ 0).2.2.1 (by decide),
    (validateField_guests _ 11).2.2.2.1 (by decide)⟩

/-! ## The date validator -/

theorem date_validator_unfold (env : Env) (value : JSValue) :
    validateField env "date" value =
      if value.truthy = false then .ok "Date is required"
      else if dateLt (newDate env value) (setHoursZero env (some env.now)) = true then
        .ok "Date cannot be in the past"
      else .ok "" := by
  simp [validateField]

theorem setHoursZero_now (env : Env) :
    setHoursZero env (some env.now) =
      timeClip (localToday env * msPerDay - env.localTZA (localToday env * msPerDay) false) :=
  rfl

theorem timeClip_of_isSome {t : Int} (h : (timeClip t).isSome = true) : timeClip t = some t := by
  unfold timeClip at h ⊢
  split
  · rfl
  · rename_i hn; simp [hn] at h

theorem timeClip_cases (t : Int) : timeClip t = none ∨ timeClip t = some t := by
  unfold timeClip
  split
  · exact Or.inr rfl
  · exact Or.inl rfl

theorem truthy_of_isoDateOnly {s : String} {f : Nat × Nat × Nat}
    (h : isoDateOnly s.data = some f) : (JSValue.str s).truthy = true := by
  have hne : s ≠ "" := by
    rintro rfl
    simp [isoDateOnly] at h
  simp [JSValue.truthy, hne]

theorem newDate_of_isoDateOnly (env : Env) {s : String} {y m d : Nat}
    (hiso : isoDateOnly s.data = some (y, m, d))
    (hreal : 1 ≤ m ∧ m ≤ 12 ∧ 1 ≤ d ∧ d ≤ daysInMonth y m) :
    newDate env (.str s) = some (makeDay y m d * msPerDay) := by
  simp only [newDate, dateParse, hiso, hreal, and_self, if_true]

/-- C6. Every date-only text naming a calendar date earlier than the current
local calendar day gets "Date cannot be in the past", in every time zone whose
offset from UTC is under 24 hours; the empty value gets "Date is required". -/
theorem validateField_date_past (env : Env) (s : String) (y m d : Nat)
    (hiso : isoDateOnly s.data = some (y, m, d))
    (hreal : 1 ≤ m ∧ m ≤ 12 ∧ 1 ≤ d ∧ d ≤ daysInMonth y m)
    (hzone : ∀ t, env.localTZA t false < msPerDay)
    (hclip : (setHoursZero env (some env.now)).isSome = true)
    (hpast : makeDay y m d < localToday env) :
    validateField env "date" (.str s) = .ok "Date cannot be in the past" ∧
    validateField env "date" (.str "") = .ok "Date is required" := by
  constructor
  · rw [date_validator_unfold, truthy_of_isoDateOnly hiso, newDate_of_isoDateOnly env hiso hreal]
    rw [setHoursZero_now] at hclip ⊢
    rw [timeClip_of_isSome hclip]
    have hz := hzone (localToday env * msPerDay)
    have hlt : makeDay y m d * msPerDay
        < localToday env * msPerDay - env.localTZA (localToday env * msPerDay) false := by
      unfold msPerDay at hz ⊢
      omega
    simp [dateLt, hlt]
  · rw [date_validator_unfold]; rfl

theorem validateField_date_past_witness :
    isoDateOnly "2026-11-03".data = some (2026, 11, 3) ∧
    makeDay 2026 11 3 < localToday tokyoNoon ∧
    validateField tokyoNoon "date" (.str "2026-11-03") = .ok "Date cannot be in the past" ∧
    validateField tokyoNoon "date" (.str "") = .ok "Date is required" :=
  ⟨by decide, by decide,
    validateField_date_past tokyoNoon "2026-11-03" 2026 11 3 (by decide) (by decide)
      (fun _ => (by decide : (32400000 : Int) < 86400000)) (by decide) (by decide)⟩

/-- C5, the failing input. At noon of 4 November 2026 in New York the text
`2026-11-04` names the current local calendar day, and the validator answers
"Date cannot be in the past": the text is read as midnight UTC, which is five
hours before the local midnight it is compared with. -/
theorem validateField_date_today_rejected :
    isoDateOnly "2026-11-04".data = some (2026, 11, 4) ∧
    makeDay 2026 11 4 = localToday newYorkNoon ∧
    validateField newYorkNoon "date" (.str "2026-11-04") = .ok "Date cannot be in the past" := by
  refine ⟨by decide, by decide, by decide⟩

/-- Where the zone is at or east of UTC, a date of today or later is accepted. -/
theorem date_validator_accepts_east_of_utc (env : Env) (s : String) (y m d : Nat)
    (hiso : isoDateOnly s.data = some (y, m, d))
    (hreal : 1 ≤ m ∧ m ≤ 12 ∧ 1 ≤ d ∧ d ≤ daysInMonth y m)
    (hzone : ∀ t, 0 ≤ env.localTZA t false)
    (hfuture : localToday env ≤ makeDay y m d) :
    validateField env "date" (.str s) = .ok "" := by
  rw [date_validator_unfold, truthy_of_isoDateOnly hiso, newDate_of_isoDateOnly env hiso hreal,
    setHoursZero_now]
  have hz := hzone (localToday env * msPerDay)
  have hge : ¬ makeDay y m d * msPerDay
      < localToday env * msPerDay - env.localTZA (localToday env * msPerDay) false := by
    unfold msPerDay at hz ⊢
    omega
  rcases timeClip_cases
    (localToday env * msPerDay - env.localTZA (localToday env * msPerDay) false) with h | h
  · rw [h]; simp [dateLt]
  · rw [h]; simp [dateLt, hge]

/-! ## Objects: lemmas -/

namespace JSObj

theorem get_nil {α : Type} (k : String) : get ([] : JSObj α) k = none := rfl

theorem get_cons {α : Type} (k k' : String) (v : α) (o : JSObj α) :
    get ((k', v) :: o) k = if k = k' then some v else get o k := by
  unfold get
  rw [List.lookup_cons]
  by_cases h : k = k'
  · simp [h]
  · have : (k == k') = false := by simpa using h
    simp [h, this]

theorem get_set_self {α : Type} (o : JSObj α) (k : String) (v : α) :
    get (set o k v) k = some v := by
  induction o with
  | nil => simp [set, get_cons]
  | cons p o ih =>
    obtain ⟨k', v'⟩ := p
    by_cases h : k' = k
    · simp [set, h, get_cons]
    · have h' : ¬ k = k' := fun e => h e.symm
      simp [set, h, get_cons, h', ih]

theorem get_set_ne {α : Type} (o : JSObj α) {k k' : String} (v : α) (hne : k' ≠ k) :
    get (set o k v) k' = get o k' := by
  induction o with
  | nil => simp [set, get_cons, hne, get_nil]
  | cons p o ih =>
    obtain ⟨k₀, v₀⟩ := p
    by_cases h : k₀ = k
    · subst h
      simp [set, get_cons, hne]
    · simp [set, h, get_cons, ih]

theorem get_set {α : Type} (o : JSObj α) (k k' : String) (v : α) :
    get (set o k v) k' = if k' = k then some v else get o k' := by
  by_cases h : k' = k
  · rw [if_pos h, h, get_set_self]
  · rw [if_neg h, get_set_ne o v h]

theorem get_eq_none_iff {α : Type} (o : JSObj α) (k : String) :
    get o k = none ↔ k ∉ keys o := by
  induction o with
  | nil => simp [get_nil, keys]
  | cons p o ih =>
    obtain ⟨k', v'⟩ := p
    by_cases h : k = k'
    · simp [get_cons, keys, h]
    · have ih' : get o k = none ↔ k ∉ List.map Prod.fst o := ih
      simp [get_cons, keys, h, ih']

theorem mem_of_get {α : Type} (o : JSObj α) (k : String) (v : α) (h : get o k = some v) :
    (k, v) ∈ o := by
  induction o with
  | nil => simp [get_nil] at h
  | cons p o ih =>
    obtain ⟨k', v'⟩ := p
    rw [get_cons] at h
    by_cases hk : k = k'
    · rw [if_pos hk] at h
      cases h
      rw [hk]
      exact List.mem_cons_self _ _
    · rw [if_neg hk] at h
      exact List.mem_cons_of_mem _ (ih h)

theorem keys_set {α : Type} (o : JSObj α) (k : String) (v : α) :
    keys (set o k v) = if k ∈ keys o then keys o else keys o ++ [k] := by
  induction o with
  | nil => simp [set, keys]
  | cons p o ih =>
    obtain ⟨k', v'⟩ := p
    have ih' : List.map Prod.fst (set o k v)
        = if k ∈ List.map Prod.fst o then List.map Prod.fst o else List.map Prod.fst o ++ [k] := ih
    by_cases h : k' = k
    · simp [set, keys, h]
    · have h' : ¬ k = k' := fun e => h e.symm
      by_cases hm : k ∈ List.map Prod.fst o
      · simp only [set, h, keys, if_false, List.map_cons, ih', hm, if_true, List.mem_cons,
          or_true]
      · simp only [set, h, keys, if_false, List.map_cons, ih', hm, List.mem_cons, h', or_self,
          List.cons_append]

theorem nodup_keys_set {α : Type} (o : JSObj α) (k : String) (v : α) (h : (keys o).Nodup) :
    (keys (set o k v)).Nodup := by
  rw [keys_set]
  by_cases hm : k ∈ keys o
  · rw [if_pos hm]; exact h
  · rw [if_neg hm]
    rw [List.nodup_append]
    refine ⟨h, List.nodup_singleton k, ?_⟩
    intro a ha hb
    simp only [List.mem_singleton] at hb
    exact hm (hb ▸ ha)

theorem eq_nil_iff_get {α : Type} (o : JSObj α) : o = [] ↔ ∀ k, get o k = none := by
  constructor
  · rintro rfl k; rfl
  · intro h
    cases o with
    | nil => rfl
    | cons p o =>
      obtain ⟨k', v'⟩ := p
      have := h k'
      simp [get_cons] at this

end JSObj

/-! ## Whole-form validation -/

theorem validateField_ok_of_str (env : Env) (k s : String) :
    ∃ m, validateField env k (.str s) = .ok m := by
  unfold validateField
  split
  · split
    · exact ⟨_, rfl⟩
    · dsimp only; split <;> exact ⟨_, rfl⟩
  · split <;> exact ⟨_, rfl⟩
  · split
    · exact ⟨_, rfl⟩
    · split
      · exact ⟨_, rfl⟩
      · split <;> exact ⟨_, rfl⟩
  · dsimp only
    split
    · exact ⟨_, rfl⟩
    · split <;> exact ⟨_, rfl⟩
  · dsimp only
    split
    · exact ⟨_, rfl⟩
    · split <;> exact ⟨_, rfl⟩
  · exact ⟨_, rfl⟩

theorem validateField_ok_of_other (env : Env) (k : String) (v : JSValue)
    (h : k ≠ "firstName" ∧ k ≠ "email") : ∃ m, validateField env k v = .ok m := by
  unfold validateField
  split
  · split
    · exact ⟨_, rfl⟩
    · dsimp only; split <;> exact ⟨_, rfl⟩
  · split <;> exact ⟨_, rfl⟩
  · split
    · exact ⟨_, rfl⟩
    · split
      · exact ⟨_, rfl⟩
      · split <;> exact ⟨_, rfl⟩
  · exact absurd rfl h.1
  · exact absurd rfl h.2
  · exact ⟨_, rfl⟩

/-- On a draft whose `firstName` and `email` are strings no validator throws. -/
theorem validateField_ok_of_stringFields (env : Env) (d : JSObj JSValue)
    (htyped : stringFields d = true) (k : String) (hk : k ∈ d.keys) :
    ∃ m, validateField env k (d.prop k) = .ok m := by
  unfold JSObj.prop
  cases hg : d.get k with
  | none => exact absurd hk ((JSObj.get_eq_none_iff d k).mp hg)
  | some v =>
    have hmem := JSObj.mem_of_get d k v hg
    have hp := (List.all_eq_true.mp htyped) (k, v) hmem
    simp only [Option.getD_some]
    cases v with
    | str s => exact validateField_ok_of_str env k s
    | undefined => exact validateField_ok_of_other env k _ (by simpa using hp)
    | null => exact validateField_ok_of_other env k _ (by simpa using hp)
    | bool b => exact validateField_ok_of_other env k _ (by simpa using hp)
    | num n => exact validateField_ok_of_other env k _ (by simpa using hp)

theorem failingMessage_eq_some (env : Env) (d : JSObj JSValue) (k m : String) :
    failingMessage env d k = some m ↔ m ≠ "" ∧ validateField env k (d.prop k) = .ok m := by
  unfold failingMessage
  cases h : validateField env k (d.prop k) with
  | error e => simp
  | ok e =>
    by_cases he : e = ""
    · subst he
      simp only [ne_eq, not_true_eq_false, if_false, Except.ok.injEq, false_iff, not_and]
      constructor
      · intro h'; cases h'
      · rintro ⟨hm, heq⟩; exact absurd heq.symm hm
    · simp only [ne_eq, he, not_false_eq_true, if_true, Option.some.injEq, Except.ok.injEq]
      constructor
      · rintro rfl; exact ⟨he, rfl⟩
      · rintro ⟨_, h⟩; exact h

theorem failingMessage_eq_none (env : Env) (d : JSObj JSValue) (k : String)
    (hok : ∃ m, validateField env k (d.prop k) = .ok m) :
    failingMessage env d k = none ↔ validateField env k (d.prop k) = .ok "" := by
  obtain ⟨m, hm⟩ := hok
  unfold failingMessage
  rw [hm]
  by_cases he : m = ""
  · simp [he]
  · simp [he]

/-- The loop of `validateForm`: afterwards a key of the list holds its failing
message, and every other entry is as before. -/
theorem validateKeys_spec (env : Env) (d : JSObj JSValue) :
    ∀ (ks : List String) (acc : JSObj String),
      (∀ k ∈ ks, ∃ m, validateField env k (d.prop k) = .ok m) →
      ∃ errs, validateKeys env d ks acc = .ok errs ∧
        (∀ k, errs.get k =
          ((if k ∈ ks then failingMessage env d k else none).orElse fun _ => acc.get k)) ∧
        (acc.keys.Nodup → errs.keys.Nodup) := by
  intro ks
  induction ks with
  | nil =>
    intro acc _
    exact ⟨acc, rfl, fun k => by simp, fun h => h⟩
  | cons key rest ih =>
    intro acc hok
    obtain ⟨m, hm⟩ := hok key (List.mem_cons_self _ _)
    have hrest : ∀ k ∈ rest, ∃ m, validateField env k (d.prop k) = .ok m :=
      fun k hk => hok k (List.mem_cons_of_mem _ hk)
    have hstep : ∃ acc₁, validateStep env d acc key = .ok acc₁ ∧
        (∀ k, acc₁.get k =
          ((if k = key then failingMessage env d k else none).orElse fun _ => acc.get k)) ∧
        (acc.keys.Nodup → acc₁.keys.Nodup) := by
      by_cases he : m = ""
      · refine ⟨acc, by simp [validateStep, hm, he], ?_, fun h => h⟩
        intro k
        by_cases hk : k = key
        · subst hk
          simp [failingMessage, hm, he]
        · simp [hk]
      · refine ⟨acc.set key m, by simp [validateStep, hm, he], ?_,
          fun h => JSObj.nodup_keys_set acc key m h⟩
        intro k
        rw [JSObj.get_set]
        by_cases hk : k = key
        · subst hk
          simp [failingMessage, hm, he]
        · simp [hk]
    obtain ⟨acc₁, hacc₁, hget₁, hnd₁⟩ := hstep
    obtain ⟨errs, herrs, hget, hnd⟩ := ih acc₁ hrest
    refine ⟨errs, by simp [validateKeys, hacc₁, herrs], ?_, fun h => hnd (hnd₁ h)⟩
    intro k
    rw [hget k, hget₁ k]
    by_cases hk : k = key
    · subst hk
      by_cases hr : k ∈ rest
      · cases hf : failingMessage env d k <;> simp [hr, hf]
      · simp [hr]
    · by_cases hr : k ∈ rest
      · simp [hk, hr]
      · simp [hk, hr]

theorem decide_keys_length (errs : JSObj String) :
    decide (errs.keys.length = 0) = decide (errs = []) := by
  cases errs <;> simp [JSObj.keys]

/-- Whole-form validation on a draft no validator throws on. -/
theorem wholeForm_validation_unfold (env : Env) (s : FormState)
    (hok : ∀ k ∈ s.formData.keys, ∃ m, validateField env k (s.formData.prop k) = .ok m) :
    ∃ errs : JSObj String,
      validateKeys env s.formData s.formData.keys [] = .ok errs ∧
      validateForm env s = .ok ({ s with errors := errs }, decide (errs = [])) ∧
      (∀ k, errs.get k = if k ∈ s.formData.keys then failingMessage env s.formData k else none) ∧
      errs.keys.Nodup := by
  obtain ⟨errs, herrs, hget, hnd⟩ := validateKeys_spec env s.formData s.formData.keys [] hok
  refine ⟨errs, herrs, ?_, ?_, hnd List.nodup_nil⟩
  · simp only [validateForm, herrs, decide_keys_length]
  · intro k
    rw [hget k]
    cases (if k ∈ s.formData.keys then failingMessage env s.formData k else none) <;>
      simp [JSObj.get_nil]

theorem errs_eq_nil_iff_allFieldsValid (env : Env) (d : JSObj JSValue) (errs : JSObj String)
    (hok : ∀ k ∈ d.keys, ∃ m, validateField env k (d.prop k) = .ok m)
    (hget : ∀ k, errs.get k = if k ∈ d.keys then failingMessage env d k else none) :
    errs = [] ↔ AllFieldsValid env d := by
  rw [JSObj.eq_nil_iff_get]
  constructor
  · intro h k hk
    have := h k
    rw [hget k, if_pos hk] at this
    exact (failingMessage_eq_none env d k (hok k hk)).mp this
  · intro h k
    rw [hget k]
    by_cases hk : k ∈ d.keys
    · rw [if_pos hk]
      exact (failingMessage_eq_none env d k (hok k hk)).mpr (h k hk)
    · rw [if_neg hk]

/-- C10. For every draft (whose `firstName` and `email` are strings, as in
every draft of the form) `validateForm` replaces the error map, whatever it
held, by the map whose keys are exactly the fields with a non-empty validator
message, each mapped to that message, and returns true exactly when that map is
empty; on the initial draft the map is the four required-field messages. -/
theorem validateForm_spec (env : Env) (d : JSObj JSValue) (htyped : stringFields d = true) :
    ∃ errs : JSObj String,
      (∀ (prior : JSObj String) (b : Bool),
        validateForm env ⟨d, prior, b⟩ = .ok (⟨d, errs, b⟩, decide (errs = []))) ∧
      (∀ k m, errs.get k = some m ↔
        k ∈ d.keys ∧ m ≠ "" ∧ validateField env k (d.prop k) = .ok m) ∧
      (∀ k, k ∈ errs.keys ↔
        k ∈ d.keys ∧ ∃ m, m ≠ "" ∧ validateField env k (d.prop k) = .ok m) ∧
      errs.keys.Nodup ∧
      validateForm env initialState =
        .ok ({ initialState with
                errors := [("date", "Date is required"), ("time", "Time is required"),
                  ("firstName", "Name is required"), ("email", "Email is required")] },
             false) := by
  have hok := fun k hk => validateField_ok_of_stringFields env d htyped k hk
  obtain ⟨errs, hkeys, -, hget, hnd⟩ := wholeForm_validation_unfold env ⟨d, [], false⟩ hok
  have hsome : ∀ k m, errs.get k = some m ↔
      k ∈ d.keys ∧ m ≠ "" ∧ validateField env k (d.prop k) = .ok m := by
    intro k m
    rw [hget k]
    by_cases hk : k ∈ d.keys
    · simp only [hk, if_true, true_and]
      exact failingMessage_eq_some env d k m
    · simp [hk]
  refine ⟨errs, ?_, hsome, ?_, hnd, ?_⟩
  · intro prior b
    simp only [validateForm, hkeys, decide_keys_length]
  · intro k
    constructor
    · intro hmem
      cases hg : errs.get k with
      | none => exact absurd hmem ((JSObj.get_eq_none_iff errs k).mp hg)
      | some m =>
        have := (hsome k m).mp hg
        exact ⟨this.1, m, this.2⟩
    · rintro ⟨hk, m, hm, hv⟩
      have := (hsome k m).mpr ⟨hk, hm, hv⟩
      by_contra hmem
      rw [(JSObj.get_eq_none_iff errs k).mpr hmem] at this
      cases this
  · rfl

theorem validateForm_spec_witness :
    stringFields scenarioDraft = true ∧
    ∃ errs : JSObj String,
      (∀ (prior : JSObj String) (b : Bool),
        validateForm tokyoNoon ⟨scenarioDraft, prior, b⟩
          = .ok (⟨scenarioDraft, errs, b⟩, decide (errs = []))) ∧
      (∀ k m, errs.get k = some m ↔
        k ∈ scenarioDraft.keys ∧ m ≠ "" ∧
          validateField tokyoNoon k (scenarioDraft.prop k) = .ok m) :=
  ⟨by decide,
    (validateForm_spec tokyoNoon scenarioDraft (by decide)).imp
      fun _ h => ⟨h.1, h.2.1⟩⟩

/-! ## Submission -/

/-- C1. On a draft of the form, `handleSubmit` calls the booking collaborator
(exactly once, with the current draft) if and only if every field's validator
returns the empty message; when some validator fails it makes no call at all,
leaves the draft and `isSubmitting` as they were (so `isSubmitting` stays
false), and the error map holds the message of every failing field. -/
theorem handleSubmit_gate (env : Env) (submitForm : JSObj JSValue → JSValue) (s : FormState)
    (htyped : stringFields s.formData = true) :
    ∃ s' calls, handleSubmit env submitForm s = .ok (s', calls) ∧
      (calls.filter Call.isSubmitForm = [Call.submitForm s.formData] ↔
        AllFieldsValid env s.formData) ∧
      (¬ AllFieldsValid env s.formData →
        calls = [] ∧ s'.formData = s.formData ∧ s'.isSubmitting = s.isSubmitting ∧
        (s.isSubmitting = false → s'.isSubmitting = false) ∧
        ∀ k ∈ s.formData.keys, ∀ m, validateField env k (s.formData.prop k) = .ok m →
          m ≠ "" → s'.errors.get k = some m) := by
  have hok := fun k hk => validateField_ok_of_stringFields env s.formData htyped k hk
  obtain ⟨errs, -, hform, hget, -⟩ := wholeForm_validation_unfold env s hok
  have hiff := errs_eq_nil_iff_allFieldsValid env s.formData errs hok hget
  by_cases hv : errs = []
  · have hall := hiff.mp hv
    by_cases ht : (submitForm s.formData).truthy = true
    · refine ⟨_, _, by simp only [handleSubmit, hform, hv, decide_True, Bool.not_true,
        Bool.false_eq_true, if_false, ht, if_true]; rfl, ?_, fun h => absurd hall h⟩
      simp [Call.isSubmitForm, hall]
    · refine ⟨_, _, by simp only [handleSubmit, hform, hv, decide_True, Bool.not_true,
        Bool.false_eq_true, if_false, ht]; rfl, ?_, fun h => absurd hall h⟩
      simp [Call.isSubmitForm, hall]
  · have hnall : ¬ AllFieldsValid env s.formData := fun h => hv (hiff.mpr h)
    refine ⟨{ s with errors := errs }, [], by simp [handleSubmit, hform, hv], ?_, ?_⟩
    · simp [hnall]
    · intro _
      refine ⟨rfl, rfl, rfl, fun h => h, ?_⟩
      intro k hk m hm hne
      show errs.get k = some m
      rw [hget k, if_pos hk]
      exact (failingMessage_eq_some env s.formData k m).mpr ⟨hne, hm⟩

theorem handleSubmit_gate_witness :
    stringFields initialState.formData = true ∧
    ¬ AllFieldsValid tokyoNoon initialState.formData ∧
    ∃ s' calls, handleSubmit tokyoNoon acceptAll initialState = .ok (s', calls) ∧
      calls = [] ∧ s'.formData = initialState.formData ∧ s'.isSubmitting = false ∧
      s'.errors.get "email" = some "Email is required" := by
  have hn : ¬ AllFieldsValid tokyoNoon initialState.formData := by
    intro h
    have := h "email" (by decide)
    revert this
    decide
  obtain ⟨s', calls, h, _, hrest⟩ :=
    handleSubmit_gate tokyoNoon acceptAll initialState (by decide)
  obtain ⟨h1, h2, _, h4, h5⟩ := hrest hn
  exact ⟨by decide, hn, s', calls, h, h1, h2, h4 rfl,
    h5 "email" (by decide) "Email is required" (by decide) (by decide)⟩

theorem newErrors_of_validateForm_true {env : Env} {s s₁ : FormState}
    (h : validateForm env s = .ok (s₁, true)) : s₁ = { s with errors := [] } := by
  unfold validateForm at h
  cases hk : validateKeys env s.formData s.formData.keys [] with
  | error e => rw [hk] at h; cases h
  | ok errs =>
    rw [hk] at h
    simp only [Except.ok.injEq, Prod.mk.injEq, decide_eq_true_eq] at h
    obtain ⟨h1, h2⟩ := h
    have he : errs = [] := by
      cases errs with
      | nil => rfl
      | cons p t => simp [JSObj.keys] at h2
    rw [← h1, he]

/-- C2. When the draft passes whole-form validation and the booking
collaborator returns true (or any truthy value), `handleSubmit` calls it once
and navigates exactly once, to `/confirmed`, with a booking equal to the draft;
the resulting error map is empty, so it has no `submit` key, whatever the
error map held before. -/
theorem handleSubmit_success (env : Env) (submitForm : JSObj JSValue → JSValue)
    (s s₁ : FormState) (hvalid : validateForm env s = .ok (s₁, true))
    (haccept : (submitForm s.formData).truthy = true) :
    ∃ s', handleSubmit env submitForm s =
        .ok (s', [Call.submitForm s.formData, Call.navigate "/confirmed" s.formData]) ∧
      s'.errors = [] ∧ s'.errors.get "submit" = none ∧ "submit" ∉ s'.errors.keys ∧
      s'.formData = s.formData ∧ s'.isSubmitting = false := by
  have h1 := newErrors_of_validateForm_true hvalid
  subst h1
  refine ⟨{ s with errors := [], isSubmitting := false }, ?_, rfl, rfl, ?_, rfl, rfl⟩
  · simp [handleSubmit, hvalid, haccept]
  · simp [JSObj.keys]

theorem handleSubmit_success_witness :
    ∃ s', handleSubmit tokyoNoon acceptAll
        ⟨scenarioDraft, [("submit", submitFailedMessage)], false⟩ =
        .ok (s', [Call.submitForm scenarioDraft, Call.navigate "/confirmed" scenarioDraft]) ∧
      s'.errors = [] ∧ s'.errors.get "submit" = none ∧ "submit" ∉ s'.errors.keys ∧
      s'.formData = scenarioDraft ∧ s'.isSubmitting = false :=
  handleSubmit_success tokyoNoon acceptAll
    ⟨scenarioDraft, [("submit", submitFailedMessage)], false⟩ ⟨scenarioDraft, [], false⟩
    (by decide!) (by decide)

/-- C3. When the draft passes whole-form validation and the booking
collaborator returns false or any other falsy value, `handleSubmit` sets the
`submit` error to "Failed to submit booking. Please try again.", does not
navigate, leaves the draft unchanged and ends with `isSubmitting` false. -/
theorem handleSubmit_failure (env : Env) (submitForm : JSObj JSValue → JSValue)
    (s s₁ : FormState) (hvalid : validateForm env s = .ok (s₁, true))
    (hrefuse : (submitForm s.formData).truthy = false) :
    ∃ s', handleSubmit env submitForm s = .ok (s', [Call.submitForm s.formData]) ∧
      s'.errors.get "submit" = some "Failed to submit booking. Please try again." ∧
      s'.errors = [("submit", "Failed to submit booking. Please try again.")] ∧
      s'.formData = s.formData ∧ s'.isSubmitting = false := by
  have h1 := newErrors_of_validateForm_true hvalid
  subst h1
  refine ⟨{ s with errors := [("submit", submitFailedMessage)], isSubmitting := false },
    ?_, rfl, rfl, rfl, rfl⟩
  simp [handleSubmit, hvalid, hrefuse, JSObj.set]

theorem handleSubmit_failure_witness :
    ∃ s', handleSubmit tokyoNoon refuseAll ⟨scenarioDraft, [], false⟩ =
        .ok (s', [Call.submitForm scenarioDraft]) ∧
      s'.errors.get "submit" = some "Failed to submit booking. Please try again." ∧
      s'.errors = [("submit", "Failed to submit booking. Please try again.")] ∧
      s'.formData = scenarioDraft ∧ s'.isSubmitting = false :=
  handleSubmit_failure tokyoNoon refuseAll ⟨scenarioDraft, [], false⟩ ⟨scenarioDraft, [], false⟩
    (by decide!) (by decide)

/-! ## Changing the date -/

theorem prop_set_self (o : JSObj JSValue) (k : String) (v : JSValue) :
    (o.set k v).prop k = v := by
  simp [JSObj.prop, JSObj.get_set_self]

theorem prop_set_ne (o : JSObj JSValue) {k k' : String} (v : JSValue) (hne : k' ≠ k) :
    (o.set k v).prop k' = o.prop k' := by
  simp [JSObj.prop, JSObj.get_set_ne o v hne]

/-- C4, the counterexample. Clearing the date of a draft whose time is `18:00`
makes no `updateTimes` call and leaves the time at `18:00`. -/
theorem handleChange_date_cleared :
    ∃ s', handleChange tokyoNoon "date" "" ⟨scenarioDraft, [], false⟩ = .ok (s', []) ∧
      s'.formData.prop "time" = .str "18:00" ∧ s'.formData.prop "date" = .str "" :=
  ⟨_, rfl, by decide, by decide⟩

/-- C4, amended. A change of the `date` field to a non-empty value, whatever
date it names, sets the draft's time to the empty string and calls
`updateTimes` exactly once, with the Date built from the new value; a change to
the empty value makes no `updateTimes` call and leaves the time as it was. -/
theorem handleChange_date_nonempty (env : Env) (value : String) (s : FormState) :
    (value ≠ "" →
      ∃ s', handleChange env "date" value s
          = .ok (s', [Call.updateTimes (newDate env (.str value))]) ∧
        s'.formData.prop "time" = .str "" ∧ s'.formData.prop "date" = .str value) ∧
    (value = "" →
      ∃ s', handleChange env "date" value s = .ok (s', []) ∧
        s'.formData.prop "time" = s.formData.prop "time" ∧
        s'.formData.prop "date" = .str "") := by
  obtain ⟨m, hm⟩ := validateField_ok_of_str env "date" value
  constructor
  · intro hne
    refine ⟨{ s with formData := (s.formData.set "date" (.str value)).set "time" (.str ""),
                     errors := s.errors.set "date" m }, ?_, ?_, ?_⟩
    · simp [handleChange, hm, JSValue.truthy, hne]
    · exact prop_set_self _ _ _
    · show ((s.formData.set "date" (.str value)).set "time" (.str "")).prop "date" = .str value
      rw [prop_set_ne _ _ (by decide), prop_set_self]
  · intro he
    subst he
    refine ⟨{ s with formData := s.formData.set "date" (.str ""),
                     errors := s.errors.set "date" m }, ?_, ?_, ?_⟩
    · simp [handleChange, hm, JSValue.truthy]
    · exact prop_set_ne _ _ (by decide)
    · exact prop_set_self _ _ _

theorem handleChange_date_nonempty_witness :
    ∃ s', handleChange tokyoNoon "date" "2026-11-06" ⟨scenarioDraft, [], false⟩
        = .ok (s', [Call.updateTimes (newDate tokyoNoon (.str "2026-11-06"))]) ∧
      s'.formData.prop "time" = .str "" ∧ s'.formData.prop "date" = .str "2026-11-06" :=
  (handleChange_date_nonempty tokyoNoon "2026-11-06" ⟨scenarioDraft, [], false⟩).1 (by decide)

/-! ## The reducer of available times -/

/-- C13. For every prior state and every time-slot provider, `UPDATE_TIMES`
yields exactly the provider's result for the payload and `INIT_TIMES` exactly
its result for the current date, each with one call to the provider and
whatever the prior state; every other action type returns the state unchanged
and makes no call to the provider. -/
theorem timesReducer_spec (env : Env) (provider : Payload → List String) (state : List String) :
    (∀ d : Payload,
      timesReducer env provider state { type := "UPDATE_TIMES", payload := d }
        = (provider d, [d])) ∧
    (∀ d : Payload,
      timesReducer env provider state { type := "INIT_TIMES", payload := d }
        = (provider (.date (some env.now)), [.date (some env.now)])) ∧
    (∀ action : Action, action.type ≠ "UPDATE_TIMES" → action.type ≠ "INIT_TIMES" →
      timesReducer env provider state action = (state, [])) := by
  refine ⟨fun d => rfl, fun d => rfl, ?_⟩
  intro action h1 h2
  unfold timesReducer
  split
  · exact absurd (by assumption) h1
  · exact absurd (by assumption) h2
  · rfl

theorem timesReducer_spec_witness :
    timesReducer tokyoNoon fetchAPI ["17:00", "18:00"]
      { type := "UNKNOWN", payload := .other .undefined } = (["17:00", "18:00"], []) :=
  (timesReducer_spec tokyoNoon fetchAPI ["17:00", "18:00"]).2.2
    { type := "UNKNOWN", payload := .other .undefined } (by decide) (by decide)

/-! ## Reachable states -/

/-- The change handler never throws; its result, spelled out. -/
theorem handleChange_unfold (env : Env) (name value : String) (s : FormState) :
    ∃ m, validateField env name (.str value) = .ok m ∧
      handleChange env name value s =
        .ok ({ formData :=
                 if name = "date" ∧ value ≠ "" then
                   (s.formData.set name (.str value)).set "time" (.str "")
                 else s.formData.set name (.str value),
               errors := s.errors.set name m,
               isSubmitting := s.isSubmitting },
             if name = "date" ∧ value ≠ "" then
               [Call.updateTimes (newDate env (.str value))]
             else []) := by
  obtain ⟨m, hm⟩ := validateField_ok_of_str env name value
  refine ⟨m, hm, ?_⟩
  by_cases h : name = "date" ∧ value ≠ ""
  · obtain ⟨h1, h2⟩ := h
    subst h1
    simp [handleChange, hm, JSValue.truthy, h2]
  · by_cases h1 : name = "date"
    · have h2 : value = "" := by
        by_contra hv
        exact h ⟨h1, hv⟩
      subst h1; subst h2
      simp [handleChange, hm, JSValue.truthy]
    · simp [handleChange, hm, JSValue.truthy, h1]

/-- The submit handler leaves the draft alone and never calls `updateTimes`. -/
theorem handleSubmit_effects {env : Env} {submitForm : JSObj JSValue → JSValue}
    {s s' : FormState} {calls : List Call}
    (h : handleSubmit env submitForm s = .ok (s', calls)) :
    s'.formData = s.formData ∧ ∀ c ∈ calls, ∀ d, c ≠ Call.updateTimes d := by
  unfold handleSubmit at h
  unfold validateForm at h
  cases hk : validateKeys env s.formData s.formData.keys [] with
  | error e => rw [hk] at h; cases h
  | ok errs =>
    rw [hk] at h
    dsimp only at h
    by_cases hv : decide (errs.keys.length = 0) = true
    · by_cases ht : (submitForm s.formData).truthy = true
      · simp only [hv, Bool.not_true, Bool.false_eq_true, if_false, ht, if_true,
          Except.ok.injEq, Prod.mk.injEq] at h
        obtain ⟨h1, h2⟩ := h
        subst h1; subst h2
        refine ⟨rfl, ?_⟩
        intro c hc d
        simp only [List.mem_cons, List.mem_singleton, List.not_mem_nil, or_false] at hc
        rcases hc with rfl | rfl <;> simp
      · simp only [hv, Bool.not_true, Bool.false_eq_true, if_false, ht,
          Except.ok.injEq, Prod.mk.injEq] at h
        obtain ⟨h1, h2⟩ := h
        subst h1; subst h2
        refine ⟨rfl, ?_⟩
        intro c hc d
        simp only [List.mem_singleton] at hc
        subst hc
        simp
    · have hv' : decide (errs.keys.length = 0) = false := by simpa using hv
      simp only [hv', Bool.not_false, if_true, Except.ok.injEq, Prod.mk.injEq] at h
      obtain ⟨h1, h2⟩ := h
      subst h1; subst h2
      exact ⟨rfl, fun c hc => by simp at hc⟩

theorem applyCalls_of_no_update (env : Env) (provider : Payload → List String)
    (times : List String) :
    ∀ calls : List Call, (∀ c ∈ calls, ∀ d, c ≠ Call.updateTimes d) →
      applyCalls env provider times calls = times
  | [], _ => rfl
  | c :: rest, h => by
    have hrest := applyCalls_of_no_update env provider times rest
      (fun c' hc' => h c' (List.mem_cons_of_mem _ hc'))
    cases c with
    | updateTimes d => exact absurd rfl (h _ (List.mem_cons_self _ _) d)
    | submitForm fd => simpa [applyCalls] using hrest
    | navigate path booking => simpa [applyCalls] using hrest

/-- A fresh mount has an empty time. -/
theorem timeAvailable_init (env : Env) (provider : Payload → List String) :
    TimeAvailable (appInit env provider) :=
  ⟨"", rfl, Or.inl rfl⟩

/-- One offered event keeps the time empty or available. -/
theorem timeAvailable_step {env : Env} {provider : Payload → List String}
    {submitForm : JSObj JSValue → JSValue} {a a' : AppState} {e : Event}
    (hinv : TimeAvailable a) (hoff : e.Offered a)
    (hstep : appStep env provider submitForm a e = .ok a') : TimeAvailable a' := by
  obtain ⟨t, ht, hmem⟩ := hinv
  cases e with
  | change name value =>
    obtain ⟨m, -, hc⟩ := handleChange_unfold env name value a.form
    simp only [appStep, hc, Except.ok.injEq] at hstep
    subst hstep
    by_cases hd : name = "date" ∧ value ≠ ""
    · refine ⟨"", ?_, Or.inl rfl⟩
      dsimp only
      rw [if_pos hd]
      exact prop_set_self _ _ _
    · by_cases hn : name = "time"
      · subst hn
        have hoff' : value = "" ∨ value ∈ a.availableTimes := hoff rfl
        refine ⟨value, ?_, ?_⟩
        · dsimp only
          rw [if_neg hd]
          exact prop_set_self _ _ _
        · dsimp only
          rw [if_neg hd]
          exact hoff'
      · refine ⟨t, ?_, ?_⟩
        · dsimp only
          rw [if_neg hd, prop_set_ne _ _ (fun h => hn h.symm)]
          exact ht
        · dsimp only
          rw [if_neg hd]
          exact hmem
  | submit =>
    simp only [appStep] at hstep
    cases hs : handleSubmit env submitForm a.form with
    | error err => rw [hs] at hstep; cases hstep
    | ok r =>
      obtain ⟨form, calls⟩ := r
      rw [hs] at hstep
      simp only [Except.ok.injEq] at hstep
      subst hstep
      obtain ⟨hfd, hcalls⟩ := handleSubmit_effects hs
      refine ⟨t, ?_, ?_⟩
      · show form.formData.prop "time" = .str t
        rw [hfd]; exact ht
      · show t = "" ∨ t ∈ applyCalls env provider a.availableTimes calls
        rw [applyCalls_of_no_update env provider a.availableTimes calls hcalls]
        exact hmem

/-- C11. In every state reachable from a fresh mount by change and submit
events, where a change of the time picks the empty option or one of the times
available at that moment, the draft's time is empty or one of the available
times. -/
theorem reachable_timeAvailable (provider : Payload → List String) (a : AppState)
    (h : Reachable provider a) : TimeAvailable a := by
  induction h with
  | init env => exact timeAvailable_init env provider
  | step env submitForm e _ hoff hstep ih => exact timeAvailable_step ih hoff hstep

theorem reachable_timeAvailable_witness :
    ∃ a : AppState,
      appStep tokyoNoon fetchAPI acceptAll (appInit tokyoNoon fetchAPI) (.change "time" "18:00")
        = .ok a ∧
      a.form.formData.prop "time" = .str "18:00" ∧ TimeAvailable a :=
  have hstep : appStep tokyoNoon fetchAPI acceptAll (appInit tokyoNoon fetchAPI)
      (.change "time" "18:00")
        = .ok ⟨⟨initialFormData.set "time" (.str "18:00"), [("time", "")], false⟩,
            fetchAPI (.date (some tokyoNoon.now))⟩ := by decide
  ⟨_, hstep, by decide,
    reachable_timeAvailable fetchAPI _
      (Reachable.step tokyoNoon acceptAll (.change "time" "18:00")
        (Reachable.init tokyoNoon) (fun _ => Or.inr (by decide)) hstep)⟩

/-! ## A date without slots -/

theorem mem_of_mem_set {α : Type} (o : JSObj α) (k : String) (v : α) (p : String × α)
    (h : p ∈ o.set k v) : p = (k, v) ∨ p ∈ o := by
  induction o with
  | nil =>
    simp only [JSObj.set, List.mem_singleton] at h
    exact Or.inl h
  | cons q o ih =>
    obtain ⟨k', v'⟩ := q
    by_cases hk : k' = k
    · simp only [JSObj.set, hk, if_true, List.mem_cons] at h
      rcases h with h | h
      · exact Or.inl h
      · exact Or.inr (List.mem_cons_of_mem _ h)
    · simp only [JSObj.set, hk, if_false, List.mem_cons] at h
      rcases h with h | h
      · exact Or.inr (h ▸ List.mem_cons_self _ _)
      · rcases ih h with h' | h'
        · exact Or.inl h'
        · exact Or.inr (List.mem_cons_of_mem _ h')

theorem stringFields_set_str (d : JSObj JSValue) (k v : String)
    (h : stringFields d = true) : stringFields (d.set k (.str v)) = true := by
  unfold stringFields at h ⊢
  rw [List.all_eq_true] at h ⊢
  intro p hp
  rcases mem_of_mem_set d k (.str v) p hp with rfl | hp'
  · rfl
  · exact h p hp'

theorem mem_keys_set {α : Type} (o : JSObj α) (k k' : String) (v : α) :
    k' ∈ (o.set k v).keys ↔ k' = k ∨ k' ∈ o.keys := by
  rw [JSObj.keys_set]
  by_cases hm : k ∈ o.keys
  · rw [if_pos hm]
    constructor
    · exact Or.inr
    · rintro (rfl | h)
      · exact hm
      · exact h
  · rw [if_neg hm, List.mem_append, List.mem_singleton]
    exact or_comm

/-- With an empty time in the draft, a submit attempt stops at validation. -/
theorem handleSubmit_of_empty_time (env : Env) (submitForm : JSObj JSValue → JSValue)
    (s : FormState) (htyped : stringFields s.formData = true)
    (hkey : "time" ∈ s.formData.keys) (htime : s.formData.prop "time" = .str "") :
    ∃ s', handleSubmit env submitForm s = .ok (s', []) ∧
      s'.errors.get "time" = some "Time is required" ∧ s'.formData = s.formData := by
  have hok := fun k hk => validateField_ok_of_stringFields env s.formData htyped k hk
  obtain ⟨errs, -, hform, hget, -⟩ := wholeForm_validation_unfold env s hok
  have hmsg : failingMessage env s.formData "time" = some "Time is required" := by
    rw [failingMessage_eq_some, htime]
    exact ⟨by decide, rfl⟩
  have ht : errs.get "time" = some "Time is required" := by
    rw [hget "time", if_pos hkey, hmsg]
  have hne : errs ≠ [] := by
    rintro rfl
    simp [JSObj.get_nil] at ht
  exact ⟨{ s with errors := errs }, by simp [handleSubmit, hform, hne], ht, rfl⟩

/-- An event on another field keeps the time empty and unavailable. -/
theorem timeBlocked_step (env : Env) (provider : Payload → List String)
    (submitForm : JSObj JSValue → JSValue) (a : AppState) (e : Event)
    (hb : TimeBlocked a) (he : e.OtherField) :
    ∃ a', appStep env provider submitForm a e = .ok a' ∧ TimeBlocked a' := by
  obtain ⟨htyped, hkey, htime, havail⟩ := hb
  cases e with
  | change name value =>
    obtain ⟨hnd, hnt⟩ : name ≠ "date" ∧ name ≠ "time" := he
    obtain ⟨m, -, hc⟩ := handleChange_unfold env name value a.form
    have hd : ¬ (name = "date" ∧ value ≠ "") := fun h => hnd h.1
    rw [if_neg hd, if_neg hd] at hc
    refine ⟨{ form := { formData := a.form.formData.set name (.str value),
                        errors := a.form.errors.set name m,
                        isSubmitting := a.form.isSubmitting },
              availableTimes := a.availableTimes },
      by simp only [appStep, hc, applyCalls], ?_, ?_, ?_, havail⟩
    · exact stringFields_set_str _ _ _ htyped
    · exact (mem_keys_set _ _ _ _).mpr (Or.inr hkey)
    · show (a.form.formData.set name (.str value)).prop "time" = .str ""
      rw [prop_set_ne _ _ (fun h => hnt h.symm)]
      exact htime
  | submit =>
    obtain ⟨s', hs, -, hfd⟩ := handleSubmit_of_empty_time env submitForm a.form htyped hkey htime
    refine ⟨{ form := s', availableTimes := a.availableTimes },
      by simp only [appStep, hs, applyCalls], ?_, ?_, ?_, havail⟩
    · show stringFields s'.formData = true
      rw [hfd]; exact htyped
    · show "time" ∈ s'.formData.keys
      rw [hfd]; exact hkey
    · show s'.formData.prop "time" = .str ""
      rw [hfd]; exact htime

theorem timeBlocked_run (provider : Payload → List String) :
    ∀ (steps : List (Env × (JSObj JSValue → JSValue) × Event)) (a : AppState),
      TimeBlocked a → (∀ st ∈ steps, st.2.2.OtherField) →
      ∃ a', runEvents provider a steps = .ok a' ∧ TimeBlocked a'
  | [], a, hb, _ => ⟨a, rfl, hb⟩
  | (env, submitForm, e) :: rest, a, hb, hall => by
    obtain ⟨a₁, h₁, hb₁⟩ :=
      timeBlocked_step env provider submitForm a e hb (hall _ (List.mem_cons_self _ _))
    obtain ⟨a₂, h₂, hb₂⟩ := timeBlocked_run provider rest a₁ hb₁
      (fun st hst => hall st (List.mem_cons_of_mem _ hst))
    exact ⟨a₂, by simp only [runEvents, h₁, h₂], hb₂⟩

/-- C12. When the provider has no slot for the date the user picks, then after
that change and any run of submits and edits of the other fields, no time is
available, the draft's time is empty, and a submit attempt (with any clock and
any booking collaborator) makes no call and leaves the `time` error at "Time is
required". The run may itself contain submits, so this covers every attempt. -/
theorem no_slots_blocks_submission (env : Env) (provider : Payload → List String)
    (submitForm : JSObj JSValue → JSValue) (a : AppState) (value : String)
    (htyped : stringFields a.form.formData = true) (hvalue : value ≠ "")
    (hempty : provider (.date (newDate env (.str value))) = []) :
    ∃ a₁, appStep env provider submitForm a (.change "date" value) = .ok a₁ ∧
      a₁.availableTimes = [] ∧
      ∀ steps : List (Env × (JSObj JSValue → JSValue) × Event),
        (∀ st ∈ steps, st.2.2.OtherField) →
        ∃ a₂, runEvents provider a₁ steps = .ok a₂ ∧ a₂.availableTimes = [] ∧
          a₂.form.formData.prop "time" = .str "" ∧
          ∀ (env' : Env) (submitForm' : JSObj JSValue → JSValue),
            ∃ s', handleSubmit env' submitForm' a₂.form = .ok (s', []) ∧
              s'.errors.get "time" = some "Time is required" := by
  obtain ⟨m, -, hc⟩ := handleChange_unfold env "date" value a.form
  have hd : "date" = "date" ∧ value ≠ "" := ⟨rfl, hvalue⟩
  rw [if_pos hd, if_pos hd] at hc
  have hb : TimeBlocked
      { form := { formData := (a.form.formData.set "date" (.str value)).set "time" (.str ""),
                  errors := a.form.errors.set "date" m,
                  isSubmitting := a.form.isSubmitting },
        availableTimes := [] } := by
    refine ⟨?_, ?_, ?_, rfl⟩
    · exact stringFields_set_str _ _ _ (stringFields_set_str _ _ _ htyped)
    · exact (mem_keys_set _ _ _ _).mpr (Or.inl rfl)
    · exact prop_set_self _ _ _
  refine ⟨{ form := { formData :=
                        (a.form.formData.set "date" (.str value)).set "time" (.str ""),
                      errors := a.form.errors.set "date" m,
                      isSubmitting := a.form.isSubmitting },
            availableTimes := [] },
    by simp only [appStep, hc, applyCalls, timesReducer, hempty], rfl, ?_⟩
  intro steps hsteps
  obtain ⟨a₂, hrun, htyped₂, hkey₂, htime₂, havail₂⟩ := timeBlocked_run provider steps _ hb hsteps
  refine ⟨a₂, hrun, havail₂, htime₂, ?_⟩
  intro env' submitForm'
  obtain ⟨s', hs, herr, -⟩ :=
    handleSubmit_of_empty_time env' submitForm' a₂.form htyped₂ hkey₂ htime₂
  exact ⟨s', hs, herr⟩

theorem no_slots_blocks_submission_witness :
    ∃ a₁, appStep tokyoNoon noSlots acceptAll (appInit tokyoNoon noSlots)
        (.change "date" "2026-11-06") = .ok a₁ ∧
      a₁.availableTimes = [] ∧
      ∃ a₂, runEvents noSlots a₁
          [(tokyoNoon, acceptAll, .change "firstName" "John"), (tokyoNoon, acceptAll, .submit)]
          = .ok a₂ ∧
        ∃ s', handleSubmit tokyoNoon acceptAll a₂.form = .ok (s', []) ∧
          s'.errors.get "time" = some "Time is required" := by
  obtain ⟨a₁, h₁, h₂, h₃⟩ :=
    no_slots_blocks_submission tokyoNoon noSlots acceptAll (appInit tokyoNoon noSlots)
      "2026-11-06" (by decide) (by decide) rfl
  obtain ⟨a₂, hrun, -, -, hsub⟩ := h₃
    [(tokyoNoon, acceptAll, .change "firstName" "John"), (tokyoNoon, acceptAll, .submit)]
    (by
      intro st hst
      simp only [List.mem_cons, List.mem_singleton, List.not_mem_nil, or_false] at hst
      rcases hst with rfl | rfl
      · exact ⟨by decide, by decide⟩
      · exact trivial)
  exact ⟨a₁, h₁, h₂, a₂, hrun, hsub tokyoNoon acceptAll⟩

/-- Every reachable draft holds strings in `firstName` and `email`. -/
theorem reachable_stringFields (provider : Payload → List String) (a : AppState)
    (h : Reachable provider a) : stringFields a.form.formData = true := by
  induction h with
  | init env =>
    show stringFields initialFormData = true
    decide
  | @step a a' env submitForm e _ _ hstep ih =>
    cases e with
    | change name value =>
      obtain ⟨m, -, hc⟩ := handleChange_unfold env name value a.form
      simp only [appStep, hc, Except.ok.injEq] at hstep
      subst hstep
      dsimp only
      split
      · exact stringFields_set_str _ _ _ (stringFields_set_str _ _ _ ih)
      · exact stringFields_set_str _ _ _ ih
    | submit =>
      simp only [appStep] at hstep
      cases hs : handleSubmit env submitForm a.form with
      | error err => rw [hs] at hstep; cases hstep
      | ok r =>
        obtain ⟨form, calls⟩ := r
        rw [hs] at hstep
        simp only [Except.ok.injEq] at hstep
        subst hstep
        show stringFields form.formData = true
        rw [(handleSubmit_effects hs).1]
        exact ih

/-! ## What an accepted draft satisfies -/

theorem validateKeys_ok_all (env : Env) (d : JSObj JSValue) :
    ∀ (ks : List String) (acc errs : JSObj String), validateKeys env d ks acc = .ok errs →
      ∀ k ∈ ks, ∃ m, validateField env k (d.prop k) = .ok m
  | [], _, _, _ => fun k hk => by simp at hk
  | key :: rest, acc, errs, h => by
    intro k hk
    unfold validateKeys at h
    cases hstep : validateStep env d acc key with
    | error e => rw [hstep] at h; cases h
    | ok acc₁ =>
      rw [hstep] at h
      rw [List.mem_cons] at hk
      rcases hk with rfl | hk
      · unfold validateStep at hstep
        cases hv : validateField env k (d.prop k) with
        | error e => rw [hv] at hstep; cases hstep
        | ok m => exact ⟨m, rfl⟩
      · exact validateKeys_ok_all env d rest acc₁ errs h k hk

/-- A draft that passes whole-form validation has the empty message on every
field. -/
theorem allFieldsValid_of_validateForm_true {env : Env} {s s₁ : FormState}
    (h : validateForm env s = .ok (s₁, true)) : AllFieldsValid env s.formData := by
  unfold validateForm at h
  cases hk : validateKeys env s.formData s.formData.keys [] with
  | error e => rw [hk] at h; cases h
  | ok errs =>
    rw [hk] at h
    simp only [Except.ok.injEq, Prod.mk.injEq, decide_eq_true_eq] at h
    have he : errs = [] := by
      cases errs with
      | nil => rfl
      | cons p t => simp [JSObj.keys] at h
    have hok := validateKeys_ok_all env s.formData s.formData.keys [] errs hk
    obtain ⟨errs', hk', -, hget, -⟩ := wholeForm_validation_unfold env s hok
    rw [hk] at hk'
    cases hk'
    exact (errs_eq_nil_iff_allFieldsValid env s.formData errs hok hget).mp he

/-- C14, the counterexample. The scenario draft with `2.5` guests passes
whole-form validation, and `2.5` is not an integer; so does the draft whose date
text is `tomorrow`, which Date reads as an Invalid Date and which names no
calendar date. -/
theorem accepted_drafts_outside_constraints :
    (validateForm tokyoNoon ⟨fractionalGuestsDraft, [], false⟩
        = .ok (⟨fractionalGuestsDraft, [], false⟩, true) ∧
      ¬ FieldConstraints fractionalGuestsDraft) ∧
    (validateForm tokyoNoon ⟨unreadableDateDraft, [], false⟩
        = .ok (⟨unreadableDateDraft, [], false⟩, true) ∧
      ¬ FieldConstraints unreadableDateDraft) := by
  refine ⟨⟨by decide!, ?_⟩, ⟨by decide!, ?_⟩⟩
  · rintro ⟨-, -, ⟨g, hg, -, -⟩, -, -⟩
    have hnum : (fractionalGuestsDraft.prop "guests").toNumber = .fin (5 / 2) := by decide!
    rw [hnum] at hg
    have hq : (5 / 2 : ℚ) = (g : ℚ) := JSNum.fin.inj hg
    have h5 : ((5 : Int) : ℚ) = ((2 * g : Int) : ℚ) := by
      push_cast
      linarith
    have hz : (5 : Int) = 2 * g := by exact_mod_cast h5
    omega
  · rintro ⟨⟨t, y, m, dd, ht, hiso, -⟩, -⟩
    have hprop : unreadableDateDraft.prop "date" = .str "tomorrow" := by decide
    rw [hprop] at ht
    have hts : ("tomorrow" : String) = t := JSValue.str.inj ht
    subst hts
    have hnone : isoDateOnly "tomorrow".data = none := by decide
    rw [hnone] at hiso
    cases hiso

/-- Every reachable draft holds the six fields of the form. -/
theorem reachable_hasFormKeys (provider : Payload → List String) (a : AppState)
    (h : Reachable provider a) : HasFormKeys a.form.formData := by
  induction h with
  | init env =>
    show HasFormKeys initialFormData
    intro k hk
    revert k
    decide
  | @step a a' env submitForm e _ _ hstep ih =>
    cases e with
    | change name value =>
      obtain ⟨m, -, hc⟩ := handleChange_unfold env name value a.form
      simp only [appStep, hc, Except.ok.injEq] at hstep
      subst hstep
      intro k hk
      dsimp only
      split
      · exact (mem_keys_set _ _ _ _).mpr (Or.inr ((mem_keys_set _ _ _ _).mpr (Or.inr (ih k hk))))
      · exact (mem_keys_set _ _ _ _).mpr (Or.inr (ih k hk))
    | submit =>
      simp only [appStep] at hstep
      cases hs : handleSubmit env submitForm a.form with
      | error err => rw [hs] at hstep; cases hstep
      | ok r =>
        obtain ⟨form, calls⟩ := r
        rw [hs] at hstep
        simp only [Except.ok.injEq] at hstep
        subst hstep
        show HasFormKeys form.formData
        rw [(handleSubmit_effects hs).1]
        exact ih

/-- The code accepts guests texts that round to 1 or to 10, and so does the
embedding. -/
theorem guests_validator_rounds (env : Env) :
    validateField env "guests" (.str "10.0000000000000000001") = .ok "" ∧
    validateField env "guests" (.str "0.99999999999999999999") = .ok "" := by
  constructor
  · rw [guests_validator_unfold]; decide!
  · rw [guests_validator_unfold]; decide!

/-- C14, amended. Every draft of the form (one that holds the six fields, as
every reachable draft does) on which `validateForm` reports no errors has: a
non-empty `date` that is not read as a time before the start of the local day;
a non-empty `time`; a non-empty `guests` whose number, as the double the code
compares, is neither below 1 nor above 10, hence between 1 and 10 when it is an
integer; a `firstName` of trimmed length at least 2; and an `email` of the
address shape. -/
theorem validateForm_accepts (env : Env) (s s₁ : FormState)
    (hkeys : HasFormKeys s.formData)
    (hvalid : validateForm env s = .ok (s₁, true)) :
    ((s.formData.prop "date").truthy = true ∧
      dateLt (newDate env (s.formData.prop "date")) (setHoursZero env (some env.now)) = false) ∧
    (s.formData.prop "time").truthy = true ∧
    ((s.formData.prop "guests").truthy = true ∧
      JSNum.lt (s.formData.prop "guests").toNumber (.fin 1) = false ∧
      JSNum.lt (.fin 10) (s.formData.prop "guests").toNumber = false ∧
      ∀ g : Int, (s.formData.prop "guests").toNumber = .fin (g : ℚ) → 1 ≤ g ∧ g ≤ 10) ∧
    (∃ v : String, s.formData.prop "firstName" = .str v ∧ 2 ≤ jsLength (jsTrim v)) ∧
    (∃ v : String, s.formData.prop "email" = .str v ∧ EmailShape v.data) := by
  have hall := allFieldsValid_of_validateForm_true hvalid
  refine ⟨?_, ?_, ?_, ?_, ?_⟩
  · have h := hall "date" (hkeys "date" (by decide))
    rw [date_validator_unfold] at h
    by_cases ht : (s.formData.prop "date").truthy = false
    · rw [if_pos ht] at h
      exact absurd (Except.ok.inj h) (by decide)
    · rw [if_neg ht] at h
      by_cases hl : dateLt (newDate env (s.formData.prop "date"))
          (setHoursZero env (some env.now)) = true
      · rw [if_pos hl] at h
        exact absurd (Except.ok.inj h) (by decide)
      · exact ⟨by simpa using ht, by simpa using hl⟩
  · have h := hall "time" (hkeys "time" (by decide))
    by_cases ht : (s.formData.prop "time").truthy = true
    · exact ht
    · simp [validateField, ht] at h
  · have h := hall "guests" (hkeys "guests" (by decide))
    rw [guests_validator_unfold] at h
    by_cases ht : (s.formData.prop "guests").truthy = false
    · rw [if_pos ht] at h
      exact absurd (Except.ok.inj h) (by decide)
    · rw [if_neg ht] at h
      by_cases h1 : JSNum.lt (s.formData.prop "guests").toNumber (.fin 1) = true
      · rw [if_pos h1] at h
        exact absurd (Except.ok.inj h) (by decide)
      · rw [if_neg h1] at h
        by_cases h10 : JSNum.lt (.fin 10) (s.formData.prop "guests").toNumber = true
        · rw [if_pos h10] at h
          exact absurd (Except.ok.inj h) (by decide)
        · refine ⟨by simpa using ht, by simpa using h1, by simpa using h10, ?_⟩
          intro g hg
          rw [hg] at h1 h10
          simp only [JSNum.lt, decide_eq_true_eq, not_lt] at h1 h10
          constructor
          · exact_mod_cast h1
          · exact_mod_cast h10
  · have h := hall "firstName" (hkeys "firstName" (by decide))
    cases hv : s.formData.prop "firstName" with
    | str v =>
      rw [hv] at h
      refine ⟨v, rfl, ?_⟩
      by_cases he : jsTrim v = ""
      · simp [validateField, he] at h
      · by_cases hl : jsLength (jsTrim v) < 2
        · simp [validateField, he, hl] at h
        · omega
    | undefined => rw [hv] at h; simp [validateField] at h
    | null => rw [hv] at h; simp [validateField] at h
    | bool b => rw [hv] at h; simp [validateField] at h
    | num n => rw [hv] at h; simp [validateField] at h
  · have h := hall "email" (hkeys "email" (by decide))
    cases hv : s.formData.prop "email" with
    | str v =>
      rw [hv, email_validator_unfold] at h
      refine ⟨v, rfl, ?_⟩
      rw [← emailRegex_test_iff]
      by_cases he : jsTrim v = ""
      · simp [he] at h
      · by_cases ht : emailRegex.test v = true
        · exact ht
        · simp [he, ht] at h
    | undefined => rw [hv] at h; simp [validateField] at h
    | null => rw [hv] at h; simp [validateField] at h
    | bool b => rw [hv] at h; simp [validateField] at h
    | num n => rw [hv] at h; simp [validateField] at h

theorem validateForm_accepts_witness :
    HasFormKeys scenarioDraft ∧
    validateForm tokyoNoon ⟨scenarioDraft, [], false⟩ = .ok (⟨scenarioDraft, [], false⟩, true) ∧
    (∃ v : String, scenarioDraft.prop "firstName" = .str v ∧ 2 ≤ jsLength (jsTrim v)) ∧
    (∃ v : String, scenarioDraft.prop "email" = .str v ∧ EmailShape v.data) :=
  have hk : HasFormKeys scenarioDraft := by
    intro k hk
    revert k
    decide
  have h : validateForm tokyoNoon ⟨scenarioDraft, [], false⟩
      = .ok (⟨scenarioDraft, [], false⟩, true) := by decide!
  ⟨hk, h,
    (validateForm_accepts tokyoNoon ⟨scenarioDraft, [], false⟩ ⟨scenarioDraft, [], false⟩
      hk h).2.2.2.1,
    (validateForm_accepts tokyoNoon ⟨scenarioDraft, [], false⟩ ⟨scenarioDraft, [], false⟩
      hk h).2.2.2.2⟩

end LittleLemon
